import Mathlib

/-!
# Waveform envelope renderer

A shallow embedding of `AudioWaveformRenderer` (audio_renderer_waveform.cpp / .h).

Conventions of the embedding:

* samples are `Int`s, the scratch buffer is read through a map from sample index to value;
* `/` between C++ `int`s is `Int.tdiv` (rounds toward zero);
* the drawing surface is the list of primitives sent to it, in order, with a coverage
  predicate that says which pixels a primitive paints;
* floating point values are rationals, and the arithmetic on them comes at two levels.
  At the exact level (`truncToInt`, `scaleSingle`, `scaleSeparate`, `midpointSeparate`,
  `samplesPerPixel`, `Render`) operations are not rounded and a cast is the mathematical
  truncation toward zero; the statements made at this level are those that rounding and
  overflow do not touch (the reduction loops, silence, the primitives drawn, the scratch
  buffer, the order of the windows).
  At the machine level (`roundFloat`, `roundDouble`, `castInt`, `castInt64`,
  `scaleSingleFloat`, `scaleSeparateFloat`, `midpointSeparateFloat`, `renderWindows`) every
  operation in `float` or `double` is rounded to nearest, ties to even, with 24 or 53
  significant bits, and a cast has the range of its integer type; the statements that
  rounding or overflow decide (the clamp, the averages against the peaks, the windows of
  the accumulated cursor) are made at this level.
-/

namespace AudioWaveformRenderer

/-! ## Numeric conversions -/

/-- Conversion of a floating value to an integer type: the fractional part is discarded
(rounding toward zero). -/
def truncToInt (q : ℚ) : Int :=
  if 0 ≤ q then ⌊q⌋ else ⌈q⌉

/-! ## The style enumeration -/

/-- Only render the peaks. -/
def Waveform_MaxOnly : Int := 0

/-- Render the peaks and averages. -/
def Waveform_MaxAvg : Int := 1

/-- Third enumerator of the anonymous enum. -/
def Waveform_Continuous : Int := 2

/-! ## Reduction of one pixel column -/

/-- The four accumulators of a pixel column: `peak_min`, `peak_max`, `avg_min_accum`,
`avg_max_accum`. -/
structure Accum where
  peak_min : Int
  peak_max : Int
  avg_min_accum : Int
  avg_max_accum : Int
  deriving DecidableEq, Repr

/-- Accumulators at the start of a column: all zero. -/
def Accum.zero : Accum :=
  { peak_min := 0, peak_max := 0, avg_min_accum := 0, avg_max_accum := 0 }

/-- Body of the reduction loop for one sample: a positive sample goes to the max side,
any other sample to the min side. -/
def accumStep (acc : Accum) (curSample : Int) : Accum :=
  if curSample > 0 then
    { acc with
      peak_max := max acc.peak_max curSample
      avg_max_accum := acc.avg_max_accum + curSample }
  else
    { acc with
      peak_min := min acc.peak_min curSample
      avg_min_accum := acc.avg_min_accum + curSample }

/-- The loop `for (int si = samplesPerPixel; si > 0; --si, aud += channels)` reading
`*(aud + c)`: `si` iterations remain, `aud` is the current offset into the buffer. -/
def reduceLoop (buf : Nat → Int) (channels c : Nat) : Nat → Nat → Accum → Accum
  | 0, _, acc => acc
  | si + 1, aud, acc =>
      reduceLoop buf channels c si (aud + channels) (accumStep acc (buf (aud + c)))

/-- Number of iterations of the reduction loop: `int si = samplesPerPixel`, counted down
while `si > 0`. -/
def loopCount (samplesPerPixel : ℚ) : Nat :=
  (truncToInt samplesPerPixel).toNat

/-- Reduction of a column in `RenderSingle`: `curSample = *aud`, the first channel. -/
def reduceSingle (buf : Nat → Int) (channels : Nat) (samplesPerPixel : ℚ) : Accum :=
  reduceLoop buf channels 0 (loopCount samplesPerPixel) 0 Accum.zero

/-- Reduction of a column for channel `c` in `RenderSeparate`: reads `*(aud + c)`. -/
def reduceSeparate (buf : Nat → Int) (channels c : Nat) (samplesPerPixel : ℚ) : Accum :=
  reduceLoop buf channels c (loopCount samplesPerPixel) 0 Accum.zero

/-- The scaled values of a column: pixel offsets from the midpoint. -/
structure Envelope where
  peak_min : Int
  peak_max : Int
  avg_min : Int
  avg_max : Int
  deriving DecidableEq, Repr

/-- Midpoint of `RenderSingle`: `rect.height / 2`. -/
def midpointSingle (height : Int) : Int :=
  Int.tdiv height 2

/-- Midpoint of channel `c` in `RenderSeparate`:
`(int)(rect.height / (float) channels * (c + 0.5f))`. -/
def midpointSeparate (height : Int) (channels c : Nat) : Int :=
  truncToInt ((height : ℚ) / (channels : ℚ) * ((c : ℚ) + 1 / 2))

/-- Scaling into pixel space in `RenderSingle` (the four assignments after the loop). -/
def scaleSingle (acc : Accum) (amplitude_scale : ℚ) (midpoint : Int)
    (samplesPerPixel : ℚ) : Envelope :=
  { peak_min :=
      max (Int.tdiv (truncToInt ((acc.peak_min : ℚ) * amplitude_scale * (midpoint : ℚ)))
        0x8000) (-midpoint)
    peak_max :=
      min (Int.tdiv (truncToInt ((acc.peak_max : ℚ) * amplitude_scale * (midpoint : ℚ)))
        0x8000) midpoint
    avg_min :=
      max (Int.tdiv (truncToInt ((acc.avg_min_accum : ℚ) * amplitude_scale * (midpoint : ℚ)
        / samplesPerPixel)) 0x8000) (-midpoint)
    avg_max :=
      min (Int.tdiv (truncToInt ((acc.avg_max_accum : ℚ) * amplitude_scale * (midpoint : ℚ)
        / samplesPerPixel)) 0x8000) midpoint }

/-- Scaling into pixel space in `RenderSeparate`: as in `RenderSingle` with the extra
division by the channel count. -/
def scaleSeparate (acc : Accum) (amplitude_scale : ℚ) (channels : Nat) (midpoint : Int)
    (samplesPerPixel : ℚ) : Envelope :=
  { peak_min :=
      max (Int.tdiv (truncToInt ((acc.peak_min : ℚ) * amplitude_scale / (channels : ℚ)
        * (midpoint : ℚ))) 0x8000) (-midpoint)
    peak_max :=
      min (Int.tdiv (truncToInt ((acc.peak_max : ℚ) * amplitude_scale / (channels : ℚ)
        * (midpoint : ℚ))) 0x8000) midpoint
    avg_min :=
      max (Int.tdiv (truncToInt ((acc.avg_min_accum : ℚ) * amplitude_scale / (channels : ℚ)
        * (midpoint : ℚ) / samplesPerPixel)) 0x8000) (-midpoint)
    avg_max :=
      min (Int.tdiv (truncToInt ((acc.avg_max_accum : ℚ) * amplitude_scale / (channels : ℚ)
        * (midpoint : ℚ) / samplesPerPixel)) 0x8000) midpoint }

/-- The four scaled values `RenderSingle` computes for a column whose buffer is `buf`. -/
def columnSingle (buf : Nat → Int) (channels : Nat) (amplitude_scale samplesPerPixel : ℚ)
    (height : Int) : Envelope :=
  scaleSingle (reduceSingle buf channels samplesPerPixel) amplitude_scale
    (midpointSingle height) samplesPerPixel

/-- The four scaled values `RenderSeparate` computes for channel `c` of a column. -/
def columnSeparate (buf : Nat → Int) (channels c : Nat) (amplitude_scale samplesPerPixel : ℚ)
    (height : Int) : Envelope :=
  scaleSeparate (reduceSeparate buf channels c samplesPerPixel) amplitude_scale channels
    (midpointSeparate height channels c) samplesPerPixel

/-! ## Provider and renderer state -/

/-- The audio provider as the renderer sees it. `GetAudio start count` gives the
interleaved samples the call `GetAudio(buf, start, count)` leaves in the buffer, by sample
index. -/
structure AudioProvider where
  sampleRate : Int
  channels : Nat
  bytesPerSample : Nat
  GetAudio : Int → Int → Nat → Int

/-- The fields of the renderer that rendering depends on. `audio_buffer` is the size in
bytes of the scratch buffer, `none` after `audio_buffer.reset()`. -/
structure Renderer where
  provider : AudioProvider
  pixel_ms : ℚ
  amplitude_scale : ℚ
  render_averages : Bool
  separate_channels : Bool
  audio_buffer : Option Nat

/-- The value `pixel_ms * provider->GetSampleRate() / 1000.0`. -/
def samplesPerPixel (r : Renderer) : ℚ :=
  r.pixel_ms * (r.provider.sampleRate : ℚ) / 1000

/-- The value of `buffer_needed`:
`samplesPerPixel * provider->GetChannels() * provider->GetBytesPerSample()` converted to
`size_t`. -/
def bufferNeeded (r : Renderer) : Nat :=
  (truncToInt (samplesPerPixel r * (r.provider.channels : ℚ)
    * (r.provider.bytesPerSample : ℚ))).toNat

/-- Hook run when the provider changes: `audio_buffer.reset()`. -/
def OnSetProvider (r : Renderer) : Renderer :=
  { r with audio_buffer := none }

/-- Hook run when the time scale changes: `audio_buffer.reset()`. -/
def OnSetMillisecondsPerPixel (r : Renderer) : Renderer :=
  { r with audio_buffer := none }

/-! ## Drawing primitives and events -/

/-- A primitive sent to the device context, with the colour of the pen or brush in use. -/
inductive DrawOp (C : Type) where
  | DrawRectangle (x y width height : Int) (brush : C)
  | DrawPoint (x y : Int) (pen : C)
  | DrawLine (x1 y1 x2 y2 : Int) (pen : C)
  deriving DecidableEq, Repr

/-- Colour a primitive paints with. -/
def DrawOp.colour {C : Type} : DrawOp C → C
  | .DrawRectangle _ _ _ _ brush => brush
  | .DrawPoint _ _ pen => pen
  | .DrawLine _ _ _ _ pen => pen

/-- Pixels a primitive paints. A rectangle drawn with the transparent pen fills
`width` by `height` pixels from its corner; a point paints its pixel; a line paints the
pixels from its first point up to, and not including, its second point (only horizontal
and vertical lines occur). -/
def DrawOp.covers {C : Type} : DrawOp C → Int → Int → Bool
  | .DrawRectangle x y width height _, px, py =>
      decide (x ≤ px ∧ px < x + width ∧ y ≤ py ∧ py < y + height)
  | .DrawPoint x y _, px, py => decide (px = x ∧ py = y)
  | .DrawLine x1 y1 x2 y2 _, px, py =>
      (decide (y1 = y2 ∧ py = y1) && (decide (x1 ≤ px ∧ px < x2) || decide (x2 < px ∧ px ≤ x1)))
      || (decide (x1 = x2 ∧ px = x1) && (decide (y1 ≤ py ∧ py < y2) || decide (y2 < py ∧ py ≤ y1)))

/-- Effect of one primitive on the colour of pixel `(px, py)`. -/
def paintStep {C : Type} (px py : Int) (cur : Option C) (op : DrawOp C) : Option C :=
  if op.covers px py then some op.colour else cur

/-- Colour of pixel `(px, py)` after the primitives were drawn in order: that of the last
primitive covering it, `none` when no primitive covers it. -/
def paint {C : Type} (ops : List (DrawOp C)) (px py : Int) : Option C :=
  ops.foldl (paintStep px py) none

/-- Number of primitives of the list covering pixel `(px, py)`. -/
def coverCount {C : Type} (ops : List (DrawOp C)) (px py : Int) : Nat :=
  (ops.filter (fun op => op.covers px py)).length

/-- What a render does, in order: primitives drawn, the scratch buffer allocated, audio
requested from the provider. -/
inductive Event (C : Type) where
  | draw (op : DrawOp C)
  | alloc (bytes : Nat)
  | getAudio (start count : Int)
  deriving DecidableEq, Repr

/-- The primitive of a drawing event. -/
def Event.drawOp {C : Type} : Event C → Option (DrawOp C)
  | .draw op => some op
  | _ => none

/-- The event is a request for audio. -/
def Event.isGetAudio {C : Type} : Event C → Bool
  | .getAudio _ _ => true
  | _ => false

/-- The event draws a point or a line. -/
def Event.isPointOrLine {C : Type} : Event C → Bool
  | .draw (.DrawPoint _ _ _) => true
  | .draw (.DrawLine _ _ _ _ _) => true
  | _ => false

/-- The primitives among a list of events, in order. -/
def drawOps {C : Type} (evs : List (Event C)) : List (DrawOp C) :=
  evs.filterMap Event.drawOp

/-- Result of a render: the events in order, the scratch buffer afterwards, and whether
`assert(provider->GetBytesPerSample() == 2)` failed (the events then stop there). -/
structure RenderResult (C : Type) where
  events : List (Event C)
  audio_buffer : Option Nat
  assertFailed : Bool

/-! ## Render -/

/-- The block "Make sure we've got a buffer to fill with audio data": events. -/
def ensureBufferEvents {C : Type} (r : Renderer) : List (Event C) :=
  match r.audio_buffer with
  | some _ => []
  | none => [Event.alloc (bufferNeeded r)]

/-- The block "Make sure we've got a buffer to fill with audio data": the buffer
afterwards. -/
def ensureBuffer (r : Renderer) : Nat :=
  match r.audio_buffer with
  | some b => b
  | none => bufferNeeded r

/-- Body of the column loop of `RenderSingle` for column `x` with the cursor at
`cur_sample_cursor`. -/
def singleColumnEvents {C : Type} (r : Renderer) (pal : ℚ → C) (midpoint x : Int)
    (cur_sample_cursor : ℚ) : List (Event C) :=
  let spp := samplesPerPixel r
  let buf := r.provider.GetAudio (truncToInt cur_sample_cursor) (truncToInt spp)
  let e := scaleSingle (reduceSingle buf r.provider.channels spp) r.amplitude_scale midpoint spp
  [ Event.getAudio (truncToInt cur_sample_cursor) (truncToInt spp),
    Event.draw (DrawOp.DrawPoint x (midpoint - e.peak_max) (pal (2 / 5))),
    Event.draw (DrawOp.DrawPoint x (midpoint - e.peak_min) (pal (2 / 5))) ]

/-- The column loop of `RenderSingle`: `n` columns remain, the next one is `x`; the cursor
advances by `samplesPerPixel` per column. -/
def singleColumns {C : Type} (r : Renderer) (pal : ℚ → C) (midpoint : Int) :
    Nat → Int → ℚ → List (Event C)
  | 0, _, _ => []
  | n + 1, x, cur_sample_cursor =>
      singleColumnEvents r pal midpoint x cur_sample_cursor
        ++ singleColumns r pal midpoint n (x + 1) (cur_sample_cursor + samplesPerPixel r)

/-- The function `RenderSingle` on a bitmap of `width` by `height` pixels. -/
def RenderSingle {C : Type} (r : Renderer) (colors : Nat → ℚ → C) (width height start : Int)
    (style : Nat) : RenderResult C :=
  let midpoint := midpointSingle height
  let pal := colors style
  let fill : List (Event C) := [Event.draw (DrawOp.DrawRectangle 0 0 width height (pal 0))]
  if r.provider.bytesPerSample = 2 then
    { events := fill ++ ensureBufferEvents r
        ++ singleColumns r pal midpoint width.toNat 0 ((start : ℚ) * samplesPerPixel r)
      audio_buffer := some (ensureBuffer r)
      assertFailed := false }
  else
    { events := fill ++ ensureBufferEvents r
      audio_buffer := some (ensureBuffer r)
      assertFailed := true }

/-- Body of the channel loop of `RenderSeparate` for channel `c` of column `x`. -/
def separateChannelEvents {C : Type} (r : Renderer) (pal : ℚ → C) (height x : Int)
    (buf : Nat → Int) (c : Nat) : List (Event C) :=
  let channels := r.provider.channels
  let midpoint := midpointSeparate height channels c
  let e := scaleSeparate (reduceSeparate buf channels c (samplesPerPixel r)) r.amplitude_scale
    channels midpoint (samplesPerPixel r)
  Event.draw (DrawOp.DrawLine x (midpoint - e.peak_max) x (midpoint - e.peak_min) (pal (2 / 5)))
    :: (if r.render_averages then
          [Event.draw
            (DrawOp.DrawLine x (midpoint - e.avg_max) x (midpoint - e.avg_min) (pal (7 / 10)))]
        else [])

/-- Body of the column loop of `RenderSeparate` for column `x`. -/
def separateColumnEvents {C : Type} (r : Renderer) (pal : ℚ → C) (height x : Int)
    (cur_sample_cursor : ℚ) : List (Event C) :=
  let spp := samplesPerPixel r
  let buf := r.provider.GetAudio (truncToInt cur_sample_cursor) (truncToInt spp)
  Event.getAudio (truncToInt cur_sample_cursor) (truncToInt spp)
    :: (List.range r.provider.channels).flatMap (separateChannelEvents r pal height x buf)

/-- The column loop of `RenderSeparate`. -/
def separateColumns {C : Type} (r : Renderer) (pal : ℚ → C) (height : Int) :
    Nat → Int → ℚ → List (Event C)
  | 0, _, _ => []
  | n + 1, x, cur_sample_cursor =>
      separateColumnEvents r pal height x cur_sample_cursor
        ++ separateColumns r pal height n (x + 1) (cur_sample_cursor + samplesPerPixel r)

/-- Height of a channel band as the separators use it: the factor
`(int)(rect.height / (float) channels)` of `blockWidth`. -/
def bandHeight (height : Int) (channels : Nat) : Int :=
  truncToInt ((height : ℚ) / (channels : ℚ))

/-- Row of the separator drawn for loop index `c`:
`(int)(rect.height / (float) channels) * c`. -/
def blockWidth (height : Int) (channels c : Nat) : Int :=
  bandHeight height channels * (c : Int)

/-- The channel bands the separator rows delimit, one per channel: band `c` goes from row
`blockWidth c` to row `blockWidth (c + 1)` (exclusive). -/
def bands (height : Int) (channels : Nat) : List (Int × Int) :=
  (List.range channels).map (fun c =>
    (blockWidth height channels c, blockWidth height channels (c + 1)))

/-- Sum of the heights of the channel bands. -/
def sumBandHeights (height : Int) (channels : Nat) : Int :=
  ((bands height channels).map (fun b => b.2 - b.1)).sum

/-- The horizontal zero-point lines, one per channel. -/
def zeroLines {C : Type} (r : Renderer) (pal : ℚ → C) (width height : Int) : List (Event C) :=
  (List.range r.provider.channels).map (fun c =>
    Event.draw (DrawOp.DrawLine 0 (midpointSeparate height r.provider.channels c)
      width (midpointSeparate height r.provider.channels c)
      (if r.render_averages then pal 1 else pal (2 / 5))))

/-- The channel separators: loop `for (int c = 0; c < channels - 1; ++c)`. -/
def separatorLines {C : Type} (r : Renderer) (pal : ℚ → C) (width height : Int) :
    List (Event C) :=
  (List.range (r.provider.channels - 1)).map (fun c =>
    Event.draw (DrawOp.DrawLine 0 (blockWidth height r.provider.channels c)
      width (blockWidth height r.provider.channels c) (pal (1 / 2))))

/-- The function `RenderSeparate` on a bitmap of `width` by `height` pixels. -/
def RenderSeparate {C : Type} (r : Renderer) (colors : Nat → ℚ → C)
    (width height start : Int) (style : Nat) : RenderResult C :=
  let pal := colors style
  let fill : List (Event C) := [Event.draw (DrawOp.DrawRectangle 0 0 width height (pal 0))]
  if r.provider.bytesPerSample = 2 then
    { events := fill ++ ensureBufferEvents r
        ++ separateColumns r pal height width.toNat 0 ((start : ℚ) * samplesPerPixel r)
        ++ zeroLines r pal width height ++ separatorLines r pal width height
      audio_buffer := some (ensureBuffer r)
      assertFailed := false }
  else
    { events := fill ++ ensureBufferEvents r
      audio_buffer := some (ensureBuffer r)
      assertFailed := true }

/-- The function `Render`: dispatch on `separate_channels`. -/
def Render {C : Type} (r : Renderer) (colors : Nat → ℚ → C) (width height start : Int)
    (style : Nat) : RenderResult C :=
  if r.separate_channels then RenderSeparate r colors width height start style
  else RenderSingle r colors width height start style

/-- The function `RenderBlank` on the rectangle with corner `(x, y)` and size `width` by
`height`: the primitives drawn, in order. -/
def RenderBlank {C : Type} (colors : Nat → ℚ → C) (x y width height : Int) (style : Nat) :
    List (DrawOp C) :=
  let pal := colors style
  let halfheight := Int.tdiv height 2
  [ DrawOp.DrawRectangle x y width halfheight (pal 0),
    DrawOp.DrawRectangle x (y + halfheight + 1) width (height - halfheight - 1) (pal 0),
    DrawOp.DrawLine x (y + halfheight) (x + width) (y + halfheight) (pal 1) ]

/-! ## The renderer as a state machine -/

/-- Operations on a renderer between which the scratch buffer lives. -/
inductive Op where
  | setProvider (p : AudioProvider)
  | setMillisecondsPerPixel (new_pixel_ms : ℚ)
  | render (width height start : Int) (style : Nat)

/-- Modelled from the spec: the setters of the base class `AudioRendererBitmapProvider`
(audio_renderer.h is not among the sources) store the new provider, or the new time scale,
and then run the hook of the renderer. -/
def SetProvider (r : Renderer) (p : AudioProvider) : Renderer :=
  OnSetProvider { r with provider := p }

/-- Modelled from the spec: the base class setter of the time scale (audio_renderer.h is
not among the sources) stores the new milliseconds per pixel and then runs the hook of the
renderer. -/
def SetMillisecondsPerPixel (r : Renderer) (new_pixel_ms : ℚ) : Renderer :=
  OnSetMillisecondsPerPixel { r with pixel_ms := new_pixel_ms }

/-- One operation. A render leaves the renderer with the buffer it ensured (the allocation
precedes the assertion, so this is also the state in which a failed assertion stops). -/
def step (colors : Nat → ℚ → Unit) (r : Renderer) : Op → Renderer
  | .setProvider p => SetProvider r p
  | .setMillisecondsPerPixel ms => SetMillisecondsPerPixel r ms
  | .render width height start style =>
      { r with audio_buffer := (Render r colors width height start style).audio_buffer }

/-- A sequence of operations, from left to right. -/
def run (r : Renderer) (ops : List Op) : Renderer :=
  ops.foldl (step (fun _ _ => ())) r

/-- The scratch buffer is absent or has the size a render would allocate now. -/
def BufferFresh (r : Renderer) : Prop :=
  r.audio_buffer = none ∨ r.audio_buffer = some (bufferNeeded r)

/-! ## A silent provider, for concrete evaluations -/

/-- A provider of 16-bit audio at 1000 Hz whose every sample is zero. -/
def silentProvider (channels : Nat) : AudioProvider :=
  { sampleRate := 1000, channels := channels, bytesPerSample := 2, GetAudio := fun _ _ _ => 0 }

/-- A renderer on the silent provider at one millisecond per pixel (one sample per pixel),
amplitude scale 1, no scratch buffer yet. -/
def silentRenderer (channels : Nat) (separate averages : Bool) : Renderer :=
  { provider := silentProvider channels
    pixel_ms := 1
    amplitude_scale := 1
    render_averages := averages
    separate_channels := separate
    audio_buffer := none }

/-! ## Predicates used in the statements -/

/-- Sign condition on the accumulators: the min side is at most zero, the max side at
least zero. -/
def Accum.Signed (acc : Accum) : Prop :=
  acc.peak_min ≤ 0 ∧ 0 ≤ acc.peak_max ∧ acc.avg_min_accum ≤ 0 ∧ 0 ≤ acc.avg_max_accum

/-- The samples of channel `c` in a window of `n` frames of an interleaved buffer, in the
order the reduction loop reads them: indices `frame * channels + c`. -/
def channelSamples (buf : Nat → Int) (channels c n : Nat) : List Int :=
  (List.range n).map (fun frame => buf (frame * channels + c))

/-- The envelope with all four values zero. -/
def Envelope.zero : Envelope :=
  { peak_min := 0, peak_max := 0, avg_min := 0, avg_max := 0 }

/-! ## Sample windows -/

/-- The sample window of a request for audio: first sample and number of samples. -/
def Event.window {C : Type} : Event C → Option (Int × Int)
  | .getAudio start count => some (start, count)
  | _ => none

/-- The sample windows a render reads, one per `GetAudio` call, in order. -/
def windows {C : Type} (evs : List (Event C)) : List (Int × Int) :=
  evs.filterMap Event.window

/-- The window of the column at absolute pixel `p`, as a function of `p` alone: first sample
the truncation of `p * samplesPerPixel`, count the truncation of `samplesPerPixel`. -/
def windowAt (spp : ℚ) (p : Int) : Int × Int :=
  (truncToInt ((p : ℚ) * spp), truncToInt spp)

/-! ## Buffer size, separators, style names -/

/-- A renderer without buffer on a silent mono 16-bit provider at 1500 Hz, one millisecond
per pixel: 3/2 samples per pixel. -/
def fractionalRenderer : Renderer :=
  { provider := { sampleRate := 1500, channels := 1, bytesPerSample := 2,
                  GetAudio := fun _ _ _ => 0 }
    pixel_ms := 1
    amplitude_scale := 1
    render_averages := false
    separate_channels := false
    audio_buffer := none }

/-- Rows of the horizontal lines among a list of primitives drawn with pen `pen`. -/
def rowsDrawnWith {C : Type} [DecidableEq C] (pen : C) (ops : List (DrawOp C)) : List Int :=
  ops.filterMap (fun op =>
    match op with
    | .DrawLine _ y1 _ y2 p => if y1 = y2 ∧ p = pen then some y1 else none
    | _ => none)

/-- The function `GetWaveformStyles`: the two labels pushed in order, each passed through
the translation `_( )`, here the parameter `tr`. -/
def GetWaveformStyles (tr : String → String) : List String :=
  ([] ++ [tr "Maximum"]) ++ [tr "Maximum + Average"]

/-! ## Floating point arithmetic and machine casts -/

/-- Nearest integer to `m`, a tie going to the even neighbour. -/
def roundHalfEven (m : ℚ) : Int :=
  if m - (⌊m⌋ : ℚ) < 1 / 2 then ⌊m⌋
  else if 1 / 2 < m - (⌊m⌋ : ℚ) then ⌊m⌋ + 1
  else if ⌊m⌋ % 2 = 0 then ⌊m⌋ else ⌊m⌋ + 1

/-- Search upward for the binary exponent of `q ≥ 1`: the largest `k` with `2 ^ k ≤ q`,
starting from a `k` with `2 ^ k ≤ q`. -/
def expSearchUp (q : ℚ) : Nat → Nat → Nat
  | 0, k => k
  | fuel + 1, k => if (2 : ℚ) ^ (k + 1) ≤ q then expSearchUp q fuel (k + 1) else k

/-- Search downward for the binary exponent of `0 < q < 1`: the least `k` with
`2 ^ (-k) ≤ q`. -/
def expSearchDown (q : ℚ) : Nat → Nat → Nat
  | 0, k => k
  | fuel + 1, k => if ((2 : ℚ) ^ k)⁻¹ ≤ q then k else expSearchDown q fuel (k + 1)

/-- Binary exponent of `q ≠ 0`: the integer `e` with `2 ^ e ≤ |q| < 2 ^ (e + 1)`. -/
def binaryExponent (q : ℚ) : Int :=
  if 1 ≤ |q| then (expSearchUp |q| q.num.natAbs 0 : Int)
  else -(expSearchDown |q| q.den 1 : Int)

/-- Rounding of `q` to the nearest binary floating point number with `p` significant bits
(round to nearest, ties to even): with `e` the binary exponent of `q`, the nearest multiple
of `2 ^ (e - (p - 1))`. The exponent range is not limited (no overflow to infinity, no
subnormal numbers). -/
def roundNearest (p : Nat) (q : ℚ) : ℚ :=
  if q = 0 then 0
  else (roundHalfEven (q / (2 : ℚ) ^ (binaryExponent q - ((p : Int) - 1))) : ℚ)
    * (2 : ℚ) ^ (binaryExponent q - ((p : Int) - 1))

/-- Result of an operation in `float` (24 significant bits), also of the conversion of an
integer to `float`. -/
def roundFloat (q : ℚ) : ℚ :=
  roundNearest 24 q

/-- Result of an operation in `double` (53 significant bits). -/
def roundDouble (q : ℚ) : ℚ :=
  roundNearest 53 q

/-- The cast `(int)` of a floating value, and the implicit conversion to `int`: truncation
toward zero when the result fits in 32 bits. Otherwise the conversion is undefined in C++;
the value taken here is `INT_MIN`, which the conversion instructions of x86 deliver. -/
def castInt (q : ℚ) : Int :=
  if -2 ^ 31 ≤ truncToInt q ∧ truncToInt q < 2 ^ 31 then truncToInt q else -2 ^ 31

/-- The cast `(int64_t)` of a floating value: truncation toward zero when the result fits in
64 bits, otherwise the smallest 64-bit value, as `castInt`. -/
def castInt64 (q : ℚ) : Int :=
  if -2 ^ 63 ≤ truncToInt q ∧ truncToInt q < 2 ^ 63 then truncToInt q else -2 ^ 63

/-- The cast `(int)` of `q` does not overflow. -/
def InIntRange (q : ℚ) : Prop :=
  -2 ^ 31 ≤ truncToInt q ∧ truncToInt q < 2 ^ 31

/-- The value `pixel_ms * provider->GetSampleRate() / 1000.0` in `double` arithmetic. -/
def samplesPerPixelFloat (pixel_ms : ℚ) (sampleRate : Int) : ℚ :=
  roundDouble (roundDouble (pixel_ms * (sampleRate : ℚ)) / 1000)

/-- Number of iterations of the reduction loop with the machine conversion
`int si = samplesPerPixel`. -/
def loopCountFloat (samplesPerPixel : ℚ) : Nat :=
  (castInt samplesPerPixel).toNat

/-- The operand `v * amplitude_scale * midpoint` of the peak casts of `RenderSingle`, in
`float`: `v` and `midpoint` are converted to `float`, each product is rounded. -/
def peakOperandSingle (v : Int) (amplitude_scale : ℚ) (midpoint : Int) : ℚ :=
  roundFloat (roundFloat (roundFloat (v : ℚ) * amplitude_scale) * roundFloat (midpoint : ℚ))

/-- The operand `v * amplitude_scale * midpoint / samplesPerPixel` of the average casts of
`RenderSingle`: the products in `float`, the division in `double`. -/
def avgOperandSingle (v : Int) (amplitude_scale : ℚ) (midpoint : Int)
    (samplesPerPixel : ℚ) : ℚ :=
  roundDouble (peakOperandSingle v amplitude_scale midpoint / samplesPerPixel)

/-- The operand `v * amplitude_scale / channels * midpoint` of the peak casts of
`RenderSeparate`, in `float`. -/
def peakOperandSeparate (v : Int) (amplitude_scale : ℚ) (channels : Nat) (midpoint : Int) : ℚ :=
  roundFloat (roundFloat (roundFloat (roundFloat (v : ℚ) * amplitude_scale)
    / roundFloat (channels : ℚ)) * roundFloat (midpoint : ℚ))

/-- The operand `v * amplitude_scale / channels * midpoint / samplesPerPixel` of the average
casts of `RenderSeparate`: `float` up to the last division, which is in `double`. -/
def avgOperandSeparate (v : Int) (amplitude_scale : ℚ) (channels : Nat) (midpoint : Int)
    (samplesPerPixel : ℚ) : ℚ :=
  roundDouble (peakOperandSeparate v amplitude_scale channels midpoint / samplesPerPixel)

/-- Scaling into pixel space in `RenderSingle` with the arithmetic of the machine: `float`
products, `double` division, 32-bit casts. -/
def scaleSingleFloat (acc : Accum) (amplitude_scale : ℚ) (midpoint : Int)
    (samplesPerPixel : ℚ) : Envelope :=
  { peak_min :=
      max (Int.tdiv (castInt (peakOperandSingle acc.peak_min amplitude_scale midpoint)) 0x8000)
        (-midpoint)
    peak_max :=
      min (Int.tdiv (castInt (peakOperandSingle acc.peak_max amplitude_scale midpoint)) 0x8000)
        midpoint
    avg_min :=
      max (Int.tdiv (castInt (avgOperandSingle acc.avg_min_accum amplitude_scale midpoint
        samplesPerPixel)) 0x8000) (-midpoint)
    avg_max :=
      min (Int.tdiv (castInt (avgOperandSingle acc.avg_max_accum amplitude_scale midpoint
        samplesPerPixel)) 0x8000) midpoint }

/-- Scaling into pixel space in `RenderSeparate` with the arithmetic of the machine. -/
def scaleSeparateFloat (acc : Accum) (amplitude_scale : ℚ) (channels : Nat) (midpoint : Int)
    (samplesPerPixel : ℚ) : Envelope :=
  { peak_min :=
      max (Int.tdiv (castInt (peakOperandSeparate acc.peak_min amplitude_scale channels
        midpoint)) 0x8000) (-midpoint)
    peak_max :=
      min (Int.tdiv (castInt (peakOperandSeparate acc.peak_max amplitude_scale channels
        midpoint)) 0x8000) midpoint
    avg_min :=
      max (Int.tdiv (castInt (avgOperandSeparate acc.avg_min_accum amplitude_scale channels
        midpoint samplesPerPixel)) 0x8000) (-midpoint)
    avg_max :=
      min (Int.tdiv (castInt (avgOperandSeparate acc.avg_max_accum amplitude_scale channels
        midpoint samplesPerPixel)) 0x8000) midpoint }

/-- The operand `rect.height / (float) channels * (c + 0.5f)` of the midpoint cast of
`RenderSeparate`, in `float`. -/
def midpointOperand (height : Int) (channels c : Nat) : ℚ :=
  roundFloat (roundFloat (roundFloat (height : ℚ) / roundFloat (channels : ℚ))
    * roundFloat (roundFloat (c : ℚ) + 1 / 2))

/-- Midpoint of channel `c` in `RenderSeparate` with the arithmetic of the machine. -/
def midpointSeparateFloat (height : Int) (channels c : Nat) : Int :=
  castInt (midpointOperand height channels c)

/-- The four scaled values `RenderSingle` computes for a column whose buffer is `buf`,
with the arithmetic of the machine. -/
def columnSingleFloat (buf : Nat → Int) (channels : Nat) (amplitude_scale samplesPerPixel : ℚ)
    (height : Int) : Envelope :=
  scaleSingleFloat (reduceLoop buf channels 0 (loopCountFloat samplesPerPixel) 0 Accum.zero)
    amplitude_scale (midpointSingle height) samplesPerPixel

/-- The four scaled values `RenderSeparate` computes for channel `c` of a column, with the
arithmetic of the machine. -/
def columnSeparateFloat (buf : Nat → Int) (channels c : Nat)
    (amplitude_scale samplesPerPixel : ℚ) (height : Int) : Envelope :=
  scaleSeparateFloat (reduceLoop buf channels c (loopCountFloat samplesPerPixel) 0 Accum.zero)
    amplitude_scale channels (midpointSeparateFloat height channels c) samplesPerPixel

/-- The column loop of `RenderSingle` and of `RenderSeparate` as far as the windows go:
`n` columns remain, each reads the window `((int64_t)cur_sample_cursor,
(int64_t)samplesPerPixel)` and then advances the cursor by `samplesPerPixel` in `double`. -/
def windowLoop (samplesPerPixel : ℚ) : Nat → ℚ → List (Int × Int)
  | 0, _ => []
  | n + 1, cur_sample_cursor =>
      (castInt64 cur_sample_cursor, castInt64 samplesPerPixel)
        :: windowLoop samplesPerPixel n (roundDouble (cur_sample_cursor + samplesPerPixel))

/-- The cursor after `x` further columns, starting from the cursor `cur`: `x` additions of
`samplesPerPixel` in `double`. -/
def cursorAfter (samplesPerPixel : ℚ) (cur : ℚ) : Nat → ℚ
  | 0 => cur
  | x + 1 => roundDouble (cursorAfter samplesPerPixel cur x + samplesPerPixel)

/-- The cursor before column `x` of a render from pixel `start`:
`start * samplesPerPixel`, then `x` additions of `samplesPerPixel`, all in `double`. -/
def cursorAt (samplesPerPixel : ℚ) (start : Int) (x : Nat) : ℚ :=
  cursorAfter samplesPerPixel (roundDouble ((start : ℚ) * samplesPerPixel)) x

/-- The windows read by a render of `width` columns from pixel `start`, with the cursor in
`double` arithmetic: the same in both layouts, whatever the style, the height, the
amplitude scale and the state of the scratch buffer. -/
def renderWindows (samplesPerPixel : ℚ) (width start : Int) : List (Int × Int) :=
  windowLoop samplesPerPixel width.toNat (roundDouble ((start : ℚ) * samplesPerPixel))

/-! ## Predicates on the machine arithmetic -/

/-- Lower bound `1 - 2 ^ (-24)` of the factor by which one rounding to `float` changes a
value (a rounding to `double` changes it by less). -/
def roundFactor : ℚ :=
  1 - 1 / 2 ^ 24

/-- The value `v` is `t` up to at most `n` roundings: `v = θ * t` with
`roundFactor ^ n ≤ θ ≤ 1 / roundFactor ^ n`. -/
def Rounded (n : Nat) (v t : ℚ) : Prop :=
  ∃ θ : ℚ, roundFactor ^ n ≤ θ ∧ θ ≤ (roundFactor ^ n)⁻¹ ∧ v = θ * t

/-- None of the four `(int)` casts of the scaling in `RenderSingle` overflows. -/
def NoOverflowSingle (acc : Accum) (amplitude_scale : ℚ) (midpoint : Int)
    (samplesPerPixel : ℚ) : Prop :=
  InIntRange (peakOperandSingle acc.peak_min amplitude_scale midpoint)
  ∧ InIntRange (peakOperandSingle acc.peak_max amplitude_scale midpoint)
  ∧ InIntRange (avgOperandSingle acc.avg_min_accum amplitude_scale midpoint samplesPerPixel)
  ∧ InIntRange (avgOperandSingle acc.avg_max_accum amplitude_scale midpoint samplesPerPixel)

/-- None of the four `(int)` casts of the scaling in `RenderSeparate` overflows. -/
def NoOverflowSeparate (acc : Accum) (amplitude_scale : ℚ) (channels : Nat) (midpoint : Int)
    (samplesPerPixel : ℚ) : Prop :=
  InIntRange (peakOperandSeparate acc.peak_min amplitude_scale channels midpoint)
  ∧ InIntRange (peakOperandSeparate acc.peak_max amplitude_scale channels midpoint)
  ∧ InIntRange (avgOperandSeparate acc.avg_min_accum amplitude_scale channels midpoint
      samplesPerPixel)
  ∧ InIntRange (avgOperandSeparate acc.avg_max_accum amplitude_scale channels midpoint
      samplesPerPixel)

/-- The averages are on their side of zero and within one pixel of the peaks. -/
def Envelope.AvgNearPeak (e : Envelope) : Prop :=
  e.peak_min - 1 ≤ e.avg_min ∧ e.avg_min ≤ 0 ∧ 0 ≤ e.avg_max ∧ e.avg_max ≤ e.peak_max + 1

/-! ## Basic facts about the numeric conversions -/

theorem truncToInt_nonneg {q : ℚ} (h : 0 ≤ q) : 0 ≤ truncToInt q := by
  unfold truncToInt
  rw [if_pos h]
  exact Int.floor_nonneg.mpr h

theorem truncToInt_nonpos {q : ℚ} (h : q ≤ 0) : truncToInt q ≤ 0 := by
  unfold truncToInt
  split
  · have h0 : q = 0 := le_antisymm h (by assumption)
    simp [h0]
  · exact Int.ceil_le.mpr (by simpa using h)

theorem truncToInt_zero : truncToInt 0 = 0 := by
  simp [truncToInt]

theorem tdiv_nonneg_of_nonneg {a : Int} (h : 0 ≤ a) : 0 ≤ Int.tdiv a 0x8000 :=
  Int.tdiv_nonneg h (by norm_num)

theorem tdiv_nonpos_of_nonpos {a : Int} (h : a ≤ 0) : Int.tdiv a 0x8000 ≤ 0 := by
  have h1 : 0 ≤ Int.tdiv (-a) 0x8000 := Int.tdiv_nonneg (by omega) (by norm_num)
  rw [Int.neg_tdiv] at h1
  omega

/-! ## Signs of the accumulators -/

theorem accumStep_signed {acc : Accum} (h : acc.Signed) (v : Int) : (accumStep acc v).Signed := by
  obtain ⟨h1, h2, h3, h4⟩ := h
  unfold accumStep
  split
  · refine ⟨h1, ?_, h3, ?_⟩
    · exact le_trans h2 (le_max_left _ _)
    · simp only; omega
  · refine ⟨?_, h2, ?_, h4⟩
    · exact le_trans (min_le_left _ _) h1
    · simp only; omega

theorem reduceLoop_signed (buf : Nat → Int) (channels c : Nat) (si aud : Nat) (acc : Accum)
    (h : acc.Signed) : (reduceLoop buf channels c si aud acc).Signed := by
  induction si generalizing aud acc with
  | zero => simpa [reduceLoop] using h
  | succ n ih =>
    simp only [reduceLoop]
    exact ih _ _ (accumStep_signed h _)

theorem zero_signed : Accum.zero.Signed := by
  simp [Accum.Signed, Accum.zero]

/-! ## Midpoints are not negative -/

theorem midpointSingle_nonneg {height : Int} (h : 0 ≤ height) : 0 ≤ midpointSingle height :=
  Int.tdiv_nonneg h (by norm_num)

theorem midpointSeparate_nonneg {height : Int} (h : 0 ≤ height) (channels c : Nat) :
    0 ≤ midpointSeparate height channels c := by
  apply truncToInt_nonneg
  have hq : (0 : ℚ) ≤ (height : ℚ) := by exact_mod_cast h
  have hc : (0 : ℚ) ≤ (channels : ℚ) := Nat.cast_nonneg _
  have hcc : (0 : ℚ) ≤ (c : ℚ) := Nat.cast_nonneg _
  exact mul_nonneg (div_nonneg hq hc) (by linarith)

/-! ## The reduction loop as a fold over the samples of a channel -/

theorem reduceLoop_eq_foldl (buf : Nat → Int) (channels c : Nat) (si aud : Nat) (acc : Accum) :
    reduceLoop buf channels c si aud acc
      = ((List.range si).map (fun k => buf (aud + k * channels + c))).foldl accumStep acc := by
  induction si generalizing aud acc with
  | zero => simp [reduceLoop]
  | succ n ih =>
    rw [reduceLoop, ih, List.range_succ_eq_map]
    simp only [List.map_cons, List.map_map, List.foldl_cons, Nat.zero_mul, Nat.add_zero]
    congr 2
    funext k
    simp only [Function.comp_apply]
    congr 1
    rw [Nat.succ_mul]
    omega

theorem reduceSingle_eq_foldl (buf : Nat → Int) (channels : Nat) (spp : ℚ) :
    reduceSingle buf channels spp
      = (channelSamples buf channels 0 (loopCount spp)).foldl accumStep Accum.zero := by
  unfold reduceSingle channelSamples
  rw [reduceLoop_eq_foldl]
  simp

theorem reduceSeparate_eq_foldl (buf : Nat → Int) (channels c : Nat) (spp : ℚ) :
    reduceSeparate buf channels c spp
      = (channelSamples buf channels c (loopCount spp)).foldl accumStep Accum.zero := by
  unfold reduceSeparate channelSamples
  rw [reduceLoop_eq_foldl]
  simp

theorem mem_channelSamples {buf : Nat → Int} {channels c n : Nat} {v : Int} :
    v ∈ channelSamples buf channels c n ↔ ∃ frame, frame < n ∧ buf (frame * channels + c) = v := by
  simp [channelSamples]

theorem foldl_accumStep_zero (l : List Int) (h : ∀ v ∈ l, v = 0) :
    l.foldl accumStep Accum.zero = Accum.zero := by
  induction l with
  | nil => rfl
  | cons a t ih =>
    have ha : a = 0 := h a (List.mem_cons_self _ _)
    have hstep : accumStep Accum.zero a = Accum.zero := by
      subst ha
      simp [accumStep, Accum.zero]
    rw [List.foldl_cons, hstep]
    exact ih (fun v hv => h v (List.mem_cons_of_mem _ hv))

theorem foldl_peak_max_le (l : List Int) (acc : Accum) (M : Int) (hacc : acc.peak_max ≤ M)
    (h : ∀ v ∈ l, v ≤ M) : (l.foldl accumStep acc).peak_max ≤ M := by
  induction l generalizing acc with
  | nil => simpa using hacc
  | cons a t ih =>
    rw [List.foldl_cons]
    apply ih
    · unfold accumStep
      split
      · exact max_le hacc (h a (List.mem_cons_self _ _))
      · exact hacc
    · exact fun v hv => h v (List.mem_cons_of_mem _ hv)

theorem peak_max_le_foldl (l : List Int) (acc : Accum) :
    acc.peak_max ≤ (l.foldl accumStep acc).peak_max := by
  induction l generalizing acc with
  | nil => simp
  | cons a t ih =>
    rw [List.foldl_cons]
    refine le_trans ?_ (ih _)
    unfold accumStep
    split
    · exact le_max_left _ _
    · exact le_refl _

theorem le_foldl_peak_max (l : List Int) (acc : Accum) (v : Int) (hv : v ∈ l) (hpos : 0 < v) :
    v ≤ (l.foldl accumStep acc).peak_max := by
  induction l generalizing acc with
  | nil => simp at hv
  | cons a t ih =>
    rw [List.foldl_cons]
    rcases List.mem_cons.mp hv with h | h
    · subst h
      refine le_trans ?_ (peak_max_le_foldl t _)
      unfold accumStep
      rw [if_pos hpos]
      exact le_max_right _ _
    · exact ih _ h

/-! ## Silence -/

theorem scaleSingle_zero (amplitude_scale spp : ℚ) {midpoint : Int} (hm : 0 ≤ midpoint) :
    scaleSingle Accum.zero amplitude_scale midpoint spp = Envelope.zero := by
  have h1 : max (0 : Int) (-midpoint) = 0 := max_eq_left (by omega)
  have h2 : min (0 : Int) midpoint = 0 := min_eq_left hm
  simp [scaleSingle, Accum.zero, Envelope.zero, truncToInt_zero, h1, h2]

theorem scaleSeparate_zero (amplitude_scale spp : ℚ) (channels : Nat) {midpoint : Int}
    (hm : 0 ≤ midpoint) :
    scaleSeparate Accum.zero amplitude_scale channels midpoint spp = Envelope.zero := by
  have h1 : max (0 : Int) (-midpoint) = 0 := max_eq_left (by omega)
  have h2 : min (0 : Int) midpoint = 0 := min_eq_left hm
  simp [scaleSeparate, Accum.zero, Envelope.zero, truncToInt_zero, h1, h2]

theorem channelSamples_zero {buf : Nat → Int} {channels c n : Nat} (hc : c < channels)
    (hz : ∀ i, i < n * channels → buf i = 0) : ∀ v ∈ channelSamples buf channels c n, v = 0 := by
  intro v hv
  obtain ⟨frame, hf, rfl⟩ := mem_channelSamples.mp hv
  apply hz
  calc frame * channels + c < frame * channels + channels := by omega
    _ = (frame + 1) * channels := by ring
    _ ≤ n * channels := Nat.mul_le_mul_right _ hf

theorem columnSingle_silence {buf : Nat → Int} {channels : Nat} (amplitude_scale : ℚ) {spp : ℚ}
    {height : Int} (hch : 1 ≤ channels) (hh : 0 ≤ height)
    (hz : ∀ i, i < loopCount spp * channels → buf i = 0) :
    columnSingle buf channels amplitude_scale spp height = Envelope.zero := by
  unfold columnSingle
  rw [reduceSingle_eq_foldl, foldl_accumStep_zero _ (channelSamples_zero hch hz)]
  exact scaleSingle_zero _ _ (midpointSingle_nonneg hh)

theorem columnSeparate_silence {buf : Nat → Int} {channels c : Nat} (amplitude_scale : ℚ)
    {spp : ℚ} {height : Int} (hc : c < channels) (hh : 0 ≤ height)
    (hz : ∀ i, i < loopCount spp * channels → buf i = 0) :
    columnSeparate buf channels c amplitude_scale spp height = Envelope.zero := by
  unfold columnSeparate
  rw [reduceSeparate_eq_foldl, foldl_accumStep_zero _ (channelSamples_zero hc hz)]
  exact scaleSeparate_zero _ _ _ (midpointSeparate_nonneg hh channels c)

/-- C2: when the window of a column (the first loopCount samplesPerPixel frames of the
buffer, all channels) holds only zero samples, then for every window length, height at
least 0, amplitude scale and channel count at least 1, the four scaled values of RenderSingle
and of every channel of RenderSeparate are all 0, so the rows midpoint - value at which
the column is drawn are the midpoint row (samplesPerPixel is taken above 0, where the
division of the averages is defined). -/
theorem silence_is_midpoint (buf : Nat → Int) (channels : Nat) (height : Int)
    (amplitude_scale spp : ℚ) (hch : 1 ≤ channels) (hh : 0 ≤ height) (hs : 0 < spp)
    (hz : ∀ i, i < loopCount spp * channels → buf i = 0) :
    (columnSingle buf channels amplitude_scale spp height = Envelope.zero
      ∧ midpointSingle height
          - (columnSingle buf channels amplitude_scale spp height).peak_max
          = midpointSingle height
      ∧ midpointSingle height
          - (columnSingle buf channels amplitude_scale spp height).peak_min
          = midpointSingle height)
    ∧ ∀ c, c < channels →
        (columnSeparate buf channels c amplitude_scale spp height = Envelope.zero
          ∧ midpointSeparate height channels c
              - (columnSeparate buf channels c amplitude_scale spp height).peak_max
              = midpointSeparate height channels c
          ∧ midpointSeparate height channels c
              - (columnSeparate buf channels c amplitude_scale spp height).peak_min
              = midpointSeparate height channels c
          ∧ midpointSeparate height channels c
              - (columnSeparate buf channels c amplitude_scale spp height).avg_max
              = midpointSeparate height channels c
          ∧ midpointSeparate height channels c
              - (columnSeparate buf channels c amplitude_scale spp height).avg_min
              = midpointSeparate height channels c) := by
  have _ := hs
  refine ⟨?_, fun c hc => ?_⟩
  · rw [columnSingle_silence amplitude_scale hch hh hz]
    simp [Envelope.zero]
  · rw [columnSeparate_silence amplitude_scale hc hh hz]
    simp [Envelope.zero]

/-! ## Full scale -/

theorem truncToInt_intCast (z : Int) : truncToInt (z : ℚ) = z := by
  unfold truncToInt
  split <;> simp

theorem reduceSingle_peak_max_full {buf : Nat → Int} {channels : Nat} {spp : ℚ} {k : Nat}
    (hk : k < loopCount spp) (hfull : buf (k * channels) = 32767)
    (hrest : ∀ j, j < loopCount spp → j ≠ k → buf (j * channels) = 0) :
    (reduceSingle buf channels spp).peak_max = 32767 := by
  rw [reduceSingle_eq_foldl]
  apply le_antisymm
  · apply foldl_peak_max_le
    · simp [Accum.zero]
    · intro v hv
      obtain ⟨j, hj, rfl⟩ := mem_channelSamples.mp hv
      by_cases hjk : j = k
      · subst hjk
        simpa using le_of_eq hfull
      · have := hrest j hj hjk
        simp only [Nat.add_zero]
        omega
  · apply le_foldl_peak_max
    · exact mem_channelSamples.mpr ⟨k, hk, by simpa using hfull⟩
    · norm_num

/-- C3 (counterexample): with amplitude scale 1, height 2 (midpoint 1) and a window of one
sample equal to 32767, RenderSingle computes peak_max = 0, not the midpoint. -/
theorem full_scale_not_midpoint :
    midpointSingle 2 = 1
    ∧ (columnSingle (fun i => if i = 0 then 32767 else 0) 1 1 1 2).peak_max = 0
    ∧ (columnSingle (fun i => if i = 0 then 32767 else 0) 1 1 1 2).peak_max
        ≠ midpointSingle 2 := by
  decide!

/-- C3 (amended): in RenderSingle with amplitude scale 1, for every height at least 0, a
column whose window has one first-channel sample equal to 32767 and the other
first-channel samples zero has peak_max equal to 32767 * midpoint / 0x8000 in integer
division; this is midpoint - 1 whenever 1 ≤ midpoint ≤ 32768, and it equals the midpoint
exactly when the midpoint is 0. -/
theorem full_scale_peak_max (buf : Nat → Int) (channels : Nat) (spp : ℚ) (height : Int)
    (hh : 0 ≤ height) (k : Nat) (hk : k < loopCount spp) (hfull : buf (k * channels) = 32767)
    (hrest : ∀ j, j < loopCount spp → j ≠ k → buf (j * channels) = 0) :
    (columnSingle buf channels 1 spp height).peak_max
        = Int.tdiv (32767 * midpointSingle height) 0x8000
    ∧ (1 ≤ midpointSingle height → midpointSingle height ≤ 32768 →
        (columnSingle buf channels 1 spp height).peak_max = midpointSingle height - 1)
    ∧ ((columnSingle buf channels 1 spp height).peak_max = midpointSingle height
        ↔ midpointSingle height = 0) := by
  have hm : 0 ≤ midpointSingle height := midpointSingle_nonneg hh
  have hraw := reduceSingle_peak_max_full hk hfull hrest
  have hcast : ((32767 : Int) : ℚ) * 1 * (midpointSingle height : ℚ)
      = ((32767 * midpointSingle height : Int) : ℚ) := by push_cast; ring
  have hval : (columnSingle buf channels 1 spp height).peak_max
      = min (Int.tdiv (32767 * midpointSingle height) 0x8000) (midpointSingle height) := by
    simp only [columnSingle, scaleSingle, hraw]
    rw [hcast, truncToInt_intCast]
  have hdiv : Int.tdiv (32767 * midpointSingle height) 0x8000
      = (32767 * midpointSingle height) / 32768 :=
    Int.tdiv_eq_ediv (by omega) (by norm_num)
  rw [hval, hdiv]
  generalize midpointSingle height = m at hm
  have hle : (32767 * m) / 32768 ≤ m := by omega
  rw [min_eq_left hle]
  refine ⟨rfl, ?_, ?_⟩
  · intro h1 h2; omega
  · constructor <;> intro h <;> omega

/-! ## First channel only -/

/-- C9: for every channel count and every two interleaved buffers that agree on every
first-channel sample of the window (index frame * channels, frame below the window
length), whatever the other channels hold, RenderSingle computes the same peak_min,
peak_max, avg_min and avg_max for the column. -/
theorem single_reads_first_channel_only (buf1 buf2 : Nat → Int) (channels : Nat)
    (amplitude_scale spp : ℚ) (height : Int)
    (hagree : ∀ frame, frame < loopCount spp → buf1 (frame * channels) = buf2 (frame * channels)) :
    columnSingle buf1 channels amplitude_scale spp height
      = columnSingle buf2 channels amplitude_scale spp height := by
  have hs : channelSamples buf1 channels 0 (loopCount spp)
      = channelSamples buf2 channels 0 (loopCount spp) := by
    unfold channelSamples
    apply List.map_congr_left
    intro frame hf
    simpa using hagree frame (List.mem_range.mp hf)
  unfold columnSingle
  rw [reduceSingle_eq_foldl, reduceSingle_eq_foldl, hs]

/-! ## Separated channels: vertical extent -/

/-- C5 (evaluation at the failing input): height 16, two channels, channel 1, amplitude
scale 1, a window of one frame whose channel 1 sample is 32767. The midpoint of channel 1
is row 12 and its band starts at row 8, yet the scaled peak_max is 5, so the peak segment
starts at row 7, inside the band of channel 0. -/
theorem separate_peak_leaves_band :
    midpointSeparate 16 2 1 = 12
    ∧ blockWidth 16 2 1 = 8
    ∧ (columnSeparate (fun i => if i = 1 then 32767 else 0) 2 1 1 1 16).peak_max = 5
    ∧ midpointSeparate 16 2 1
        - (columnSeparate (fun i => if i = 1 then 32767 else 0) 2 1 1 1 16).peak_max
        < blockWidth 16 2 1 := by
  decide!

/-! ## Channel bands -/

theorem bandHeight_eq_ediv {height : Int} (hh : 0 ≤ height) (channels : Nat) :
    bandHeight height channels = height / (channels : Int) := by
  unfold bandHeight truncToInt
  have hq : (0 : ℚ) ≤ (height : ℚ) / (channels : ℚ) :=
    div_nonneg (by exact_mod_cast hh) (Nat.cast_nonneg _)
  rw [if_pos hq]
  exact Rat.floor_intCast_div_natCast height channels

theorem sumBandHeights_eq (height : Int) (channels : Nat) :
    sumBandHeights height channels = (channels : Int) * bandHeight height channels := by
  unfold sumBandHeights bands
  rw [List.map_map]
  have hconst : ((fun b : Int × Int => b.2 - b.1) ∘ fun c : Nat =>
      (blockWidth height channels c, blockWidth height channels (c + 1)))
      = fun _ => bandHeight height channels := by
    funext c
    simp only [Function.comp_apply, blockWidth]
    push_cast
    ring
  rw [hconst]
  simp

/-- C6 (counterexample): with height 5 and 2 channels the band height is 2 and the two
bands together have height 4, not 5. -/
theorem bands_do_not_sum_to_height :
    bandHeight 5 2 = 2 ∧ bands 5 2 = [(0, 2), (2, 4)] ∧ sumBandHeights 5 2 = 4
    ∧ sumBandHeights 5 2 ≠ 5 := by
  decide!

/-- C6 (amended): for every height at least 0 and every channel count at least 1, the
number of bands equals the channel count, every band has height height / channels in
integer division, the first band starts at row 0 and each band ends where the next one
starts, and the band heights add up to height - height mod channels: at most height, and
equal to height exactly when the channel count divides the height. -/
theorem bands_partition (height : Int) (channels : Nat) (hh : 0 ≤ height) (hc : 1 ≤ channels) :
    (bands height channels).length = channels
    ∧ (∀ b ∈ bands height channels, b.2 - b.1 = height / (channels : Int))
    ∧ blockWidth height channels 0 = 0
    ∧ (∀ c, c + 1 < channels →
        ((bands height channels).getD c (0, 0)).2 = ((bands height channels).getD (c + 1) (0, 0)).1)
    ∧ sumBandHeights height channels = height - height % (channels : Int)
    ∧ sumBandHeights height channels ≤ height
    ∧ (sumBandHeights height channels = height ↔ (channels : Int) ∣ height) := by
  have hbh := bandHeight_eq_ediv hh channels
  have hcpos : (0 : Int) < (channels : Int) := by exact_mod_cast hc
  have hsum : sumBandHeights height channels = height - height % (channels : Int) := by
    rw [sumBandHeights_eq, hbh]
    have := Int.emod_add_ediv height (channels : Int)
    linarith
  have hmod : 0 ≤ height % (channels : Int) := Int.emod_nonneg _ (by omega)
  refine ⟨by simp [bands], ?_, by simp [blockWidth], ?_, hsum, by omega, ?_⟩
  · intro b hb
    simp only [bands, List.mem_map, List.mem_range] at hb
    obtain ⟨c, _, rfl⟩ := hb
    simp only [blockWidth, hbh]
    push_cast
    ring
  · intro c hc1
    have h1 : c < (bands height channels).length := by simp [bands]; omega
    have h2 : c + 1 < (bands height channels).length := by simp [bands]; omega
    rw [List.getD_eq_getElem _ _ h1, List.getD_eq_getElem _ _ h2]
    simp [bands]
  · rw [hsum]
    constructor
    · intro h
      exact Int.dvd_of_emod_eq_zero (by omega)
    · intro h
      rw [Int.emod_eq_zero_of_dvd h]
      omega

/-! ## RenderBlank -/

/-- C10: for every rectangle with height at least 1 and width at least 1, RenderBlank
emits the top background rectangle of halfheight rows, the bottom background rectangle of
height - halfheight - 1 rows from row y + halfheight + 1, and the centreline at row
y + halfheight; every pixel of the rectangle is covered by exactly one of the three, and
no pixel anywhere is covered by two of them. -/
theorem renderBlank_partition {C : Type} (colors : Nat → ℚ → C) (x y width height : Int)
    (style : Nat) (hh : 1 ≤ height) (hw : 1 ≤ width) :
    RenderBlank colors x y width height style
      = [ DrawOp.DrawRectangle x y width (Int.tdiv height 2) (colors style 0),
          DrawOp.DrawRectangle x (y + Int.tdiv height 2 + 1) width
            (height - Int.tdiv height 2 - 1) (colors style 0),
          DrawOp.DrawLine x (y + Int.tdiv height 2) (x + width) (y + Int.tdiv height 2)
            (colors style 1) ]
    ∧ (∀ px py, x ≤ px → px < x + width → y ≤ py → py < y + height →
        coverCount (RenderBlank colors x y width height style) px py = 1)
    ∧ (∀ px py, coverCount (RenderBlank colors x y width height style) px py ≤ 1) := by
  have hdiv : Int.tdiv height 2 = height / 2 := Int.tdiv_eq_ediv (by omega) (by norm_num)
  have _ := hw
  refine ⟨rfl, ?_, ?_⟩
  · intro px py h1 h2 h3 h4
    simp only [coverCount, RenderBlank, hdiv, List.filter_cons, List.filter_nil, DrawOp.covers]
    split_ifs <;> simp_all <;> omega
  · intro px py
    simp only [coverCount, RenderBlank, hdiv, List.filter_cons, List.filter_nil, DrawOp.covers]
    split_ifs <;> simp_all <;> omega

/-! ## The scratch buffer across operations -/

theorem Render_audio_buffer {C : Type} (r : Renderer) (colors : Nat → ℚ → C)
    (width height start : Int) (style : Nat) :
    (Render r colors width height start style).audio_buffer = some (ensureBuffer r) := by
  unfold Render RenderSingle RenderSeparate
  split <;> split <;> rfl

theorem ensureBuffer_of_fresh {r : Renderer} (h : BufferFresh r) :
    ensureBuffer r = bufferNeeded r := by
  unfold ensureBuffer
  rcases h with h | h <;> rw [h]

theorem step_fresh (colors : Nat → ℚ → Unit) {r : Renderer} (h : BufferFresh r) (op : Op) :
    BufferFresh (step colors r op) := by
  cases op with
  | setProvider p => exact Or.inl rfl
  | setMillisecondsPerPixel ms => exact Or.inl rfl
  | render width height start style =>
    right
    simp only [step, Render_audio_buffer, ensureBuffer_of_fresh h]
    rfl

theorem foldl_step_fresh (colors : Nat → ℚ → Unit) (ops : List Op) {r : Renderer}
    (h : BufferFresh r) : BufferFresh (ops.foldl (step colors) r) := by
  induction ops generalizing r with
  | nil => exact h
  | cons op t ih => exact ih (step_fresh colors h op)

/-- C7: starting from a renderer with no buffer, after every sequence of set-provider,
set-milliseconds-per-pixel and Render operations the scratch buffer is absent or has
exactly the size Render would allocate for the current provider and time scale; so the
buffer a Render works with in that state, and in the state right after a change of
provider or of time scale, has the size for the current parameters. -/
theorem scratch_buffer_invariant (r0 : Renderer) (ops : List Op) :
    BufferFresh (run { r0 with audio_buffer := none } ops)
    ∧ ensureBuffer (run { r0 with audio_buffer := none } ops)
        = bufferNeeded (run { r0 with audio_buffer := none } ops)
    ∧ (∀ p, ensureBuffer (SetProvider (run { r0 with audio_buffer := none } ops) p)
        = bufferNeeded (SetProvider (run { r0 with audio_buffer := none } ops) p))
    ∧ (∀ ms, ensureBuffer (SetMillisecondsPerPixel (run { r0 with audio_buffer := none } ops) ms)
        = bufferNeeded (SetMillisecondsPerPixel (run { r0 with audio_buffer := none } ops) ms)) := by
  have h : BufferFresh (run { r0 with audio_buffer := none } ops) :=
    foldl_step_fresh _ ops (Or.inl rfl)
  exact ⟨h, ensureBuffer_of_fresh h, fun _ => rfl, fun _ => rfl⟩

/-! ## The byte width assertion -/

/-- C8: Render, in both layout modes, fails its assertion exactly when the bytes per
sample of the provider is not 2; when it fails, no audio has been requested from the
provider and no point or line has been drawn; when bytes per sample is 2 it does not fail,
for every width, height, start pixel and style. -/
theorem render_asserts_byte_width {C : Type} (r : Renderer) (colors : Nat → ℚ → C)
    (width height start : Int) (style : Nat) :
    ((Render r colors width height start style).assertFailed = true
        ↔ r.provider.bytesPerSample ≠ 2)
    ∧ ((Render r colors width height start style).assertFailed = true →
        ∀ e ∈ (Render r colors width height start style).events,
          e.isGetAudio = false ∧ e.isPointOrLine = false)
    ∧ (r.provider.bytesPerSample = 2 →
        (Render r colors width height start style).assertFailed = false) := by
  by_cases hb : r.provider.bytesPerSample = 2
  · have hf : (Render r colors width height start style).assertFailed = false := by
      unfold Render RenderSingle RenderSeparate
      split <;> simp [hb]
    refine ⟨by simp [hf, hb], by simp [hf], fun _ => hf⟩
  · have hf : (Render r colors width height start style).assertFailed = true := by
      unfold Render RenderSingle RenderSeparate
      split <;> simp [hb]
    have hev : (Render r colors width height start style).events
        = Event.draw (DrawOp.DrawRectangle 0 0 width height (colors style 0))
            :: ensureBufferEvents r := by
      unfold Render RenderSingle RenderSeparate
      split <;> simp [hb]
    refine ⟨by simp [hf, hb], fun _ e he => ?_, fun h => absurd h hb⟩
    rw [hev] at he
    rcases List.mem_cons.mp he with h | h
    · subst h
      exact ⟨rfl, rfl⟩
    · unfold ensureBufferEvents at h
      split at h
      · simp at h
      · simp only [List.mem_singleton] at h
        subst h
        exact ⟨rfl, rfl⟩

/-! ## Painting -/

theorem foldl_paintStep_not_covered {C : Type} (ops : List (DrawOp C)) (px py : Int)
    (init : Option C) (h : ∀ op ∈ ops, op.covers px py = false) :
    ops.foldl (paintStep px py) init = init := by
  induction ops generalizing init with
  | nil => rfl
  | cons a t ih =>
    rw [List.foldl_cons]
    have ha : paintStep px py init a = init := by
      simp [paintStep, h a (List.mem_cons_self _ _)]
    rw [ha]
    exact ih init (fun op hop => h op (List.mem_cons_of_mem _ hop))

theorem drawOps_append {C : Type} (a b : List (Event C)) :
    drawOps (a ++ b) = drawOps a ++ drawOps b :=
  List.filterMap_append _ _ _

theorem drawOps_ensureBufferEvents {C : Type} (r : Renderer) :
    drawOps (ensureBufferEvents r : List (Event C)) = [] := by
  unfold ensureBufferEvents
  split <;> rfl

theorem foldl_accumStep_silent {buf : Nat → Int} (hz : ∀ i, buf i = 0) (channels c n : Nat) :
    (channelSamples buf channels c n).foldl accumStep Accum.zero = Accum.zero := by
  apply foldl_accumStep_zero
  intro v hv
  obtain ⟨frame, _, rfl⟩ := mem_channelSamples.mp hv
  exact hz _

/-! ## Render over silence -/

theorem drawOps_singleColumnEvents_silent {C : Type} (r : Renderer) (pal : ℚ → C)
    {midpoint : Int} (hm : 0 ≤ midpoint) (x : Int) (cur : ℚ)
    (hsil : ∀ s n i, r.provider.GetAudio s n i = 0) :
    drawOps (singleColumnEvents r pal midpoint x cur)
      = [DrawOp.DrawPoint x midpoint (pal (2 / 5)), DrawOp.DrawPoint x midpoint (pal (2 / 5))] := by
  unfold singleColumnEvents
  simp only []
  rw [reduceSingle_eq_foldl, foldl_accumStep_silent (hsil _ _), scaleSingle_zero _ _ hm]
  simp [drawOps, Event.drawOp, Envelope.zero]

theorem paint_singleColumns_silent {C : Type} (r : Renderer) (pal : ℚ → C) {midpoint : Int}
    (hm : 0 ≤ midpoint) (hsil : ∀ s n i, r.provider.GetAudio s n i = 0) (px py : Int)
    (n : Nat) (x : Int) (cur : ℚ) (init : Option C) :
    (drawOps (singleColumns r pal midpoint n x cur)).foldl (paintStep px py) init
      = if py = midpoint ∧ x ≤ px ∧ px < x + n then some (pal (2 / 5)) else init := by
  induction n generalizing x cur init with
  | zero =>
    have h0 : ¬ (py = midpoint ∧ x ≤ px ∧ px < x + ((0 : Nat) : Int)) := by
      push_cast; omega
    rw [if_neg h0]
    rfl
  | succ k ih =>
    rw [singleColumns, drawOps_append, List.foldl_append, ih,
      drawOps_singleColumnEvents_silent r pal hm x cur hsil]
    simp only [List.foldl_cons, List.foldl_nil, paintStep, DrawOp.covers, DrawOp.colour]
    push_cast
    by_cases h1 : py = midpoint
    · by_cases h2 : px = x
      · by_cases h3 : x + 1 ≤ px ∧ px < x + 1 + (k : Int)
        · omega
        · have h4 : x ≤ px ∧ px < x + ((k : Int) + 1) := by omega
          simp [h1, h2]
      · by_cases h3 : x + 1 ≤ px ∧ px < x + 1 + (k : Int)
        · have h4 : x ≤ px ∧ px < x + ((k : Int) + 1) := by omega
          simp [h1, h2, h3, h4]
        · have h4 : ¬ (x ≤ px ∧ px < x + ((k : Int) + 1)) := by omega
          simp [h1, h2, h3, h4]
    · simp [h1]

theorem separateChannelEvents_silent_not_covered {C : Type} (r : Renderer) (pal : ℚ → C)
    {height : Int} (hh : 0 ≤ height) (x : Int) {buf : Nat → Int} (hz : ∀ i, buf i = 0)
    (c : Nat) (px py : Int) :
    ∀ op ∈ drawOps (separateChannelEvents r pal height x buf c), op.covers px py = false := by
  intro op hop
  unfold separateChannelEvents at hop
  simp only [] at hop
  rw [reduceSeparate_eq_foldl, foldl_accumStep_silent hz,
    scaleSeparate_zero _ _ _ (midpointSeparate_nonneg hh _ c)] at hop
  by_cases hra : r.render_averages = true
  · simp only [hra, if_true, drawOps, List.filterMap_cons, Event.drawOp, List.filterMap_nil,
      Envelope.zero, sub_zero, List.mem_cons, List.mem_singleton, List.not_mem_nil,
      or_false] at hop
    rcases hop with h | h <;> subst h <;> simp [DrawOp.covers]
  · simp only [hra, drawOps, List.filterMap_cons, Event.drawOp, List.filterMap_nil,
      Envelope.zero, sub_zero, List.mem_cons, List.mem_singleton, List.not_mem_nil,
      or_false] at hop
    simp only [Bool.false_eq_true, if_false, List.filterMap_nil, List.mem_singleton,
      List.not_mem_nil, or_false] at hop
    subst hop
    simp [DrawOp.covers]

theorem separateColumns_silent_not_covered {C : Type} (r : Renderer) (pal : ℚ → C)
    {height : Int} (hh : 0 ≤ height) (hsil : ∀ s n i, r.provider.GetAudio s n i = 0)
    (px py : Int) (n : Nat) (x : Int) (cur : ℚ) :
    ∀ op ∈ drawOps (separateColumns r pal height n x cur), op.covers px py = false := by
  induction n generalizing x cur with
  | zero =>
    intro op hop
    simp [separateColumns, drawOps] at hop
  | succ k ih =>
    intro op hop
    rw [separateColumns, drawOps_append, List.mem_append] at hop
    rcases hop with h | h
    · unfold separateColumnEvents at h
      simp only [drawOps, List.filterMap_cons, Event.drawOp] at h
      rw [List.mem_filterMap] at h
      obtain ⟨e, he, hop⟩ := h
      obtain ⟨c, _, hc⟩ := List.mem_flatMap.mp he
      apply separateChannelEvents_silent_not_covered r pal hh x (hsil _ _) c px py
      exact List.mem_filterMap.mpr ⟨e, hc, hop⟩
    · exact ih _ _ op h

theorem midpointSeparate_one {height : Int} (hh : 0 ≤ height) :
    midpointSeparate height 1 0 = height / 2 := by
  unfold midpointSeparate truncToInt
  have hq : (0 : ℚ) ≤ (height : ℚ) := by exact_mod_cast hh
  have he : (height : ℚ) / ((1 : Nat) : ℚ) * (((0 : Nat) : ℚ) + 1 / 2)
      = (height : ℚ) / ((2 : Nat) : ℚ) := by
    push_cast; ring
  rw [he, if_pos (div_nonneg hq (by norm_num))]
  exact Rat.floor_intCast_div_natCast height 2

theorem paint_RenderBlank {C : Type} (colors : Nat → ℚ → C) (width height : Int) (style : Nat)
    (px py : Int) (hx0 : 0 ≤ px) (hx1 : px < width) (hy0 : 0 ≤ py) (hy1 : py < height) :
    paint (RenderBlank colors 0 0 width height style) px py
      = some (if py = height / 2 then colors style 1 else colors style 0) := by
  have hdiv : Int.tdiv height 2 = height / 2 := Int.tdiv_eq_ediv (by omega) (by norm_num)
  simp only [paint, RenderBlank, hdiv, List.foldl_cons, List.foldl_nil, paintStep,
    DrawOp.covers, DrawOp.colour]
  simp only [Bool.or_eq_true, Bool.and_eq_true, decide_eq_true_eq, true_and, zero_add]
  split_ifs <;> first | rfl | (exfalso; omega)

theorem paint_RenderSingle_silent {C : Type} (r : Renderer) (colors : Nat → ℚ → C)
    (width height start : Int) (style : Nat) (hb : r.provider.bytesPerSample = 2)
    (hsil : ∀ s n i, r.provider.GetAudio s n i = 0)
    (px py : Int) (hx0 : 0 ≤ px) (hx1 : px < width) (hy0 : 0 ≤ py) (hy1 : py < height) :
    paint (drawOps (RenderSingle r colors width height start style).events) px py
      = some (if py = height / 2 then colors style (2 / 5) else colors style 0) := by
  have hdiv : midpointSingle height = height / 2 :=
    Int.tdiv_eq_ediv (by omega) (by norm_num)
  have hm : 0 ≤ midpointSingle height := midpointSingle_nonneg (by omega)
  have hw : ((width.toNat : Nat) : Int) = width := Int.toNat_of_nonneg (by omega)
  unfold RenderSingle paint
  simp only [hb, if_true]
  rw [drawOps_append, drawOps_append, drawOps_ensureBufferEvents, List.append_nil,
    List.foldl_append, paint_singleColumns_silent r (colors style) hm hsil, hw, hdiv]
  simp only [drawOps, List.filterMap_cons, List.filterMap_nil, Event.drawOp, List.foldl_cons,
    List.foldl_nil, paintStep, DrawOp.covers, DrawOp.colour, decide_eq_true_eq]
  split_ifs <;> first | rfl | (exfalso; omega)

theorem paint_RenderSeparate_silent_one {C : Type} (r : Renderer) (colors : Nat → ℚ → C)
    (width height start : Int) (style : Nat) (hb : r.provider.bytesPerSample = 2)
    (hch : r.provider.channels = 1) (hsil : ∀ s n i, r.provider.GetAudio s n i = 0)
    (px py : Int) (hx0 : 0 ≤ px) (hx1 : px < width) (hy0 : 0 ≤ py) (hy1 : py < height) :
    paint (drawOps (RenderSeparate r colors width height start style).events) px py
      = some (if py = height / 2 then
                (if r.render_averages then colors style 1 else colors style (2 / 5))
              else colors style 0) := by
  have hh : 0 ≤ height := by omega
  unfold RenderSeparate paint
  simp only [hb, if_true, drawOps_append, List.foldl_append, drawOps_ensureBufferEvents,
    List.foldl_nil]
  rw [foldl_paintStep_not_covered (drawOps (separateColumns _ _ _ _ _ _)) px py _
    (separateColumns_silent_not_covered r (colors style) hh hsil px py _ _ _)]
  have hr1 : List.range 1 = [0] := rfl
  simp only [zeroLines, separatorLines, hch, hr1, List.range_zero, List.map_cons,
    List.map_nil, Nat.sub_self, midpointSeparate_one hh, drawOps, List.filterMap_cons,
    List.filterMap_nil, Event.drawOp, List.foldl_cons, List.foldl_nil, paintStep,
    DrawOp.covers, DrawOp.colour, Bool.or_eq_true, Bool.and_eq_true, decide_eq_true_eq,
    true_and, zero_add]
  split_ifs <;> first | rfl | (exfalso; omega)

/-- C4 (counterexample): with the palette that maps each intensity to itself, on a silent
provider. In single-trace mode on a 1 by 2 bitmap, pixel (0, 1) gets intensity 2/5 from
Render and intensity 1 from RenderBlank. In separated mode with two channels on a 1 by 4
bitmap, pixel (0, 0) gets intensity 1/2 (a separator) from Render and intensity 0 (the
background) from RenderBlank. -/
theorem render_silence_differs_from_blank :
    paint (drawOps (Render (silentRenderer 1 false false) (fun _ q => q) 1 2 0 0).events) 0 1
        = some (2 / 5)
    ∧ paint (RenderBlank (fun _ q => q) 0 0 1 2 0) 0 1 = some (1 : ℚ)
    ∧ paint (drawOps (Render (silentRenderer 2 true true) (fun _ q => q) 1 4 0 0).events) 0 0
        = some (1 / 2)
    ∧ paint (RenderBlank (fun _ q => q) 0 0 1 4 0) 0 0 = some (0 : ℚ)
    ∧ paint (drawOps (Render (silentRenderer 1 false false) (fun _ q => q) 1 2 0 0).events) 0 1
        ≠ paint (RenderBlank (fun _ q => q) 0 0 1 2 0) 0 1
    ∧ paint (drawOps (Render (silentRenderer 2 true true) (fun _ q => q) 1 4 0 0).events) 0 0
        ≠ paint (RenderBlank (fun _ q => q) 0 0 1 4 0) 0 0 := by
  decide!

/-- C4 (amended): for every bitmap size, style and palette, on a provider of 16-bit audio
that returns only zero samples, at every pixel of the bitmap: RenderBlank paints
palette(1) on the row height / 2 and palette(0) elsewhere; Render in single-trace mode
paints palette(2/5) on the row height / 2 and palette(0) elsewhere; Render in separated
mode with one channel paints, on the row height / 2, palette(1) when averages are
rendered and palette(2/5) otherwise, and palette(0) elsewhere. So in these modes the two
grids agree at every pixel off the row height / 2, they are identical in separated mode
with one channel and averages rendered, and identical in the other cases when the palette
gives 2/5 and 1 the same colour. -/
theorem render_silence_vs_blank {C : Type} (r : Renderer) (colors : Nat → ℚ → C)
    (width height start : Int) (style : Nat) (hb : r.provider.bytesPerSample = 2)
    (hs : 0 < samplesPerPixel r) (hsil : ∀ s n i, r.provider.GetAudio s n i = 0)
    (px py : Int) (hx0 : 0 ≤ px) (hx1 : px < width) (hy0 : 0 ≤ py) (hy1 : py < height) :
    paint (RenderBlank colors 0 0 width height style) px py
        = some (if py = height / 2 then colors style 1 else colors style 0)
    ∧ (r.separate_channels = false →
        paint (drawOps (Render r colors width height start style).events) px py
          = some (if py = height / 2 then colors style (2 / 5) else colors style 0))
    ∧ (r.separate_channels = true → r.provider.channels = 1 →
        paint (drawOps (Render r colors width height start style).events) px py
          = some (if py = height / 2 then
                    (if r.render_averages then colors style 1 else colors style (2 / 5))
                  else colors style 0))
    ∧ ((r.separate_channels = false ∨ r.provider.channels = 1) → py ≠ height / 2 →
        paint (drawOps (Render r colors width height start style).events) px py
          = paint (RenderBlank colors 0 0 width height style) px py)
    ∧ (r.separate_channels = true → r.provider.channels = 1 → r.render_averages = true →
        paint (drawOps (Render r colors width height start style).events) px py
          = paint (RenderBlank colors 0 0 width height style) px py)
    ∧ ((r.separate_channels = false ∨ r.provider.channels = 1) →
        colors style (2 / 5) = colors style 1 →
        paint (drawOps (Render r colors width height start style).events) px py
          = paint (RenderBlank colors 0 0 width height style) px py) := by
  have _ := hs
  have hblank := paint_RenderBlank colors width height style px py hx0 hx1 hy0 hy1
  have hsingle : r.separate_channels = false →
      paint (drawOps (Render r colors width height start style).events) px py
        = some (if py = height / 2 then colors style (2 / 5) else colors style 0) := by
    intro hmode
    unfold Render
    simp only [hmode, Bool.false_eq_true, if_false]
    exact paint_RenderSingle_silent r colors width height start style hb hsil px py
      hx0 hx1 hy0 hy1
  have hsep : r.separate_channels = true → r.provider.channels = 1 →
      paint (drawOps (Render r colors width height start style).events) px py
        = some (if py = height / 2 then
                  (if r.render_averages then colors style 1 else colors style (2 / 5))
                else colors style 0) := by
    intro hmode hch
    unfold Render
    simp only [hmode, if_true]
    exact paint_RenderSeparate_silent_one r colors width height start style hb hch hsil px py
      hx0 hx1 hy0 hy1
  refine ⟨hblank, hsingle, hsep, ?_, ?_, ?_⟩
  · intro hmode hrow
    rw [hblank]
    cases hsc : r.separate_channels with
    | false => rw [hsingle hsc, if_neg hrow, if_neg hrow]
    | true =>
      rcases hmode with h | h
      · rw [hsc] at h; cases h
      · rw [hsep hsc h, if_neg hrow, if_neg hrow]
  · intro hmode hch hra
    rw [hblank, hsep hmode hch, hra]
    simp
  · intro hmode hcol
    rw [hblank]
    cases hsc : r.separate_channels with
    | false => rw [hsingle hsc, hcol]
    | true =>
      rcases hmode with h | h
      · rw [hsc] at h; cases h
      · rw [hsep hsc h, hcol]
        simp

/-! ## Instances at concrete inputs -/

/-- Instance of C2: a buffer that is zero on a window of two frames of two channels and
nonzero after it. -/
theorem silence_is_midpoint_witness :
    columnSingle (fun i => if i < 4 then 0 else 9) 2 3 2 10 = Envelope.zero
    ∧ columnSeparate (fun i => if i < 4 then 0 else 9) 2 1 3 2 10 = Envelope.zero :=
  have hz : ∀ i, i < loopCount 2 * 2 → (fun i : Nat => if i < 4 then (0 : Int) else 9) i = 0 := by
    intro i hi
    have h2 : loopCount 2 = 2 := by decide!
    rw [h2] at hi
    simp only [ite_eq_left_iff]
    omega
  ⟨(silence_is_midpoint (fun i => if i < 4 then 0 else 9) 2 10 3 2
      (by norm_num) (by norm_num) (by norm_num) hz).1.1,
    ((silence_is_midpoint (fun i => if i < 4 then 0 else 9) 2 10 3 2
      (by norm_num) (by norm_num) (by norm_num) hz).2 1 (by norm_num)).1⟩

/-- Instance of C3 (amended): height 100, one sample 32767, peak_max is 49. -/
theorem full_scale_peak_max_witness :
    (columnSingle (fun i => if i = 0 then 32767 else 0) 1 1 1 100).peak_max
      = midpointSingle 100 - 1 :=
  (full_scale_peak_max (fun i => if i = 0 then 32767 else 0) 1 1 100 (by norm_num) 0
    (by decide!) (by simp) (by intro j _ hj; simp [hj])).2.1 (by decide) (by decide)

/-- Instance of C4 (amended): pixel (1, 2) of a 3 by 4 bitmap in single-trace mode. -/
theorem render_silence_vs_blank_witness :
    paint (RenderBlank (fun _ q => q) 0 0 3 4 0) 1 2
        = some (if (2 : Int) = 4 / 2 then (1 : ℚ) else 0)
    ∧ paint (drawOps (Render (silentRenderer 1 false false) (fun _ q => q) 3 4 0 0).events) 1 2
        = some (if (2 : Int) = 4 / 2 then (2 / 5 : ℚ) else 0) :=
  ⟨(render_silence_vs_blank (silentRenderer 1 false false) (fun _ q => q) 3 4 0 0 rfl
      (by decide!) (fun _ _ _ => rfl) 1 2 (by norm_num) (by norm_num) (by norm_num)
      (by norm_num)).1,
    (render_silence_vs_blank (silentRenderer 1 false false) (fun _ q => q) 3 4 0 0 rfl
      (by decide!) (fun _ _ _ => rfl) 1 2 (by norm_num) (by norm_num) (by norm_num)
      (by norm_num)).2.1 rfl⟩

/-- Instance of C6 (amended): height 5, two channels. -/
theorem bands_partition_witness :
    (bands 5 2).length = 2 ∧ sumBandHeights 5 2 = 5 - 5 % ((2 : Nat) : Int) :=
  ⟨(bands_partition 5 2 (by norm_num) (by norm_num)).1,
    (bands_partition 5 2 (by norm_num) (by norm_num)).2.2.2.2.1⟩

/-- Instance of C9: two stereo buffers with the same first channel and different second
channels. -/
theorem single_reads_first_channel_only_witness :
    columnSingle (fun i => if i % 2 = 0 then 7 else 100) 2 1 3 10
      = columnSingle (fun i => if i % 2 = 0 then 7 else -3) 2 1 3 10 :=
  single_reads_first_channel_only (fun i => if i % 2 = 0 then 7 else 100)
    (fun i => if i % 2 = 0 then 7 else -3) 2 1 3 10
    (by
      intro frame _
      have h : frame * 2 % 2 = 0 := by omega
      simp [h])

/-- Instance of C10: pixel (1, 2), on the centreline of a 3 by 5 rectangle. -/
theorem renderBlank_partition_witness :
    coverCount (RenderBlank (fun _ q => q) 0 0 3 5 0) 1 2 = 1 :=
  (renderBlank_partition (fun _ q => q) 0 0 3 5 0 (by norm_num) (by norm_num)).2.1 1 2
    (by norm_num) (by norm_num) (by norm_num) (by norm_num)

/-! ## Sample windows of a render -/

theorem windows_append {C : Type} (a b : List (Event C)) :
    windows (a ++ b) = windows a ++ windows b :=
  List.filterMap_append _ _ _

theorem windows_eq_nil_of_draws {C : Type} (evs : List (Event C))
    (h : ∀ e ∈ evs, e.window = none) : windows evs = [] := by
  induction evs with
  | nil => rfl
  | cons a t ih =>
    have ha : a.window = none := h a (List.mem_cons_self _ _)
    simp only [windows, List.filterMap_cons, ha]
    exact ih (fun e he => h e (List.mem_cons_of_mem _ he))

theorem windows_ensureBufferEvents {C : Type} (r : Renderer) :
    windows (ensureBufferEvents r : List (Event C)) = [] := by
  unfold ensureBufferEvents
  split <;> rfl

theorem windows_zeroLines {C : Type} (r : Renderer) (pal : ℚ → C) (width height : Int) :
    windows (zeroLines r pal width height) = [] := by
  apply windows_eq_nil_of_draws
  intro e he
  simp only [zeroLines, List.mem_map] at he
  obtain ⟨c, _, rfl⟩ := he
  rfl

theorem windows_separatorLines {C : Type} (r : Renderer) (pal : ℚ → C) (width height : Int) :
    windows (separatorLines r pal width height) = [] := by
  apply windows_eq_nil_of_draws
  intro e he
  simp only [separatorLines, List.mem_map] at he
  obtain ⟨c, _, rfl⟩ := he
  rfl

theorem windows_singleColumns {C : Type} (r : Renderer) (pal : ℚ → C) (midpoint : Int)
    (n : Nat) (x : Int) (cur : ℚ) :
    windows (singleColumns r pal midpoint n x cur)
      = (List.range n).map (fun i : Nat =>
          (truncToInt (cur + (i : ℚ) * samplesPerPixel r), truncToInt (samplesPerPixel r))) := by
  induction n generalizing x cur with
  | zero => rfl
  | succ k ih =>
    rw [singleColumns, windows_append, ih, List.range_succ_eq_map]
    simp only [singleColumnEvents, windows, List.filterMap_cons, List.filterMap_nil,
      Event.window, List.map_cons, List.map_map, List.cons_append, List.nil_append,
      Nat.cast_zero, zero_mul, add_zero]
    congr 1
    apply List.map_congr_left
    intro i _
    simp only [Function.comp_apply, Nat.cast_succ]
    congr 2
    ring

theorem windows_separateColumnEvents {C : Type} (r : Renderer) (pal : ℚ → C) (height x : Int)
    (cur : ℚ) :
    windows (separateColumnEvents r pal height x cur)
      = [(truncToInt cur, truncToInt (samplesPerPixel r))] := by
  unfold separateColumnEvents
  simp only [windows, List.filterMap_cons, Event.window]
  congr 1
  apply windows_eq_nil_of_draws
  intro e he
  obtain ⟨c, _, hc⟩ := List.mem_flatMap.mp he
  unfold separateChannelEvents at hc
  simp only [] at hc
  rcases List.mem_cons.mp hc with h | h
  · subst h; rfl
  · split at h
    · rw [List.mem_singleton] at h
      subst h; rfl
    · simp at h

theorem windows_separateColumns {C : Type} (r : Renderer) (pal : ℚ → C) (height : Int)
    (n : Nat) (x : Int) (cur : ℚ) :
    windows (separateColumns r pal height n x cur)
      = (List.range n).map (fun i : Nat =>
          (truncToInt (cur + (i : ℚ) * samplesPerPixel r), truncToInt (samplesPerPixel r))) := by
  induction n generalizing x cur with
  | zero => rfl
  | succ k ih =>
    rw [separateColumns, windows_append, ih, windows_separateColumnEvents,
      List.range_succ_eq_map]
    simp only [List.map_cons, List.map_map, List.cons_append, List.nil_append,
      Nat.cast_zero, zero_mul, add_zero]
    congr 1
    apply List.map_congr_left
    intro i _
    simp only [Function.comp_apply, Nat.cast_succ]
    congr 2
    ring

theorem windows_Render {C : Type} (r : Renderer) (colors : Nat → ℚ → C)
    (width height start : Int) (style : Nat) (hb : r.provider.bytesPerSample = 2) :
    windows (Render r colors width height start style).events
      = (List.range width.toNat).map (fun x : Nat =>
          windowAt (samplesPerPixel r) (start + (x : Int))) := by
  have hcur : ∀ i : Nat, (start : ℚ) * samplesPerPixel r + (i : ℚ) * samplesPerPixel r
      = ((start + (i : Int) : Int) : ℚ) * samplesPerPixel r := by
    intro i; push_cast; ring
  unfold Render
  split
  · unfold RenderSeparate
    simp only [hb, if_true, windows_append, windows_ensureBufferEvents, windows_zeroLines,
      windows_separatorLines, windows_separateColumns, List.append_nil, hcur]
    simp [windows, Event.window, windowAt]
  · unfold RenderSingle
    simp only [hb, if_true, windows_append, windows_ensureBufferEvents,
      windows_singleColumns, List.append_nil, hcur]
    simp [windows, Event.window, windowAt]

/-! ## Size of the scratch buffer -/

theorem bufferNeeded_eq_floor {r : Renderer} (hs : 0 ≤ samplesPerPixel r) :
    (bufferNeeded r : Int)
      = ⌊samplesPerPixel r * (r.provider.channels : ℚ) * (r.provider.bytesPerSample : ℚ)⌋ := by
  have hq : 0 ≤ samplesPerPixel r * (r.provider.channels : ℚ)
      * (r.provider.bytesPerSample : ℚ) :=
    mul_nonneg (mul_nonneg hs (Nat.cast_nonneg _)) (Nat.cast_nonneg _)
  unfold bufferNeeded truncToInt
  rw [if_pos hq]
  exact Int.toNat_of_nonneg (Int.floor_nonneg.mpr hq)

theorem drawOps_separatorLines {C : Type} (r : Renderer) (pal : ℚ → C) (width height : Int) :
    drawOps (separatorLines r pal width height)
      = (List.range (r.provider.channels - 1)).map (fun c =>
          DrawOp.DrawLine 0 (blockWidth height r.provider.channels c)
            width (blockWidth height r.provider.channels c) (pal (1 / 2))) := by
  unfold drawOps separatorLines
  rw [List.filterMap_map]
  induction List.range (r.provider.channels - 1) with
  | nil => rfl
  | cons a t ih =>
    rw [List.filterMap_cons, List.map_cons, ih]
    rfl

/-- C13 (evaluation at the failing input): RenderSeparate on a 4 by 16 bitmap with two
channels. The boundary between the two bands is row 8, yet the one separator (the only
line drawn with the pen of intensity 1/2) is drawn on row 0. -/
theorem separator_drawn_on_row_zero :
    blockWidth 16 2 1 = 8
    ∧ drawOps (separatorLines (silentRenderer 2 true false) (fun q => q) 4 16)
        = [DrawOp.DrawLine 0 0 4 0 (1 / 2)]
    ∧ rowsDrawnWith (1 / 2)
        (drawOps (RenderSeparate (silentRenderer 2 true false) (fun _ q => q) 4 16 0 0).events)
        = [0] := by
  decide!

/-! ## Style names -/

/-- C14: GetWaveformStyles returns, on every invocation (whatever the translation of the
labels), a list of exactly 2 entries: first the label "Maximum", second the label
"Maximum + Average", so that the index of each label is the option value of its style,
Waveform_MaxOnly = 0 and Waveform_MaxAvg = 1. -/
theorem waveform_styles_fixed (tr : String → String) :
    GetWaveformStyles tr = [tr "Maximum", tr "Maximum + Average"]
    ∧ (GetWaveformStyles tr).length = 2
    ∧ Waveform_MaxOnly = 0 ∧ Waveform_MaxAvg = 1
    ∧ (GetWaveformStyles tr)[Waveform_MaxOnly.toNat]? = some (tr "Maximum")
    ∧ (GetWaveformStyles tr)[Waveform_MaxAvg.toNat]? = some (tr "Maximum + Average") :=
  ⟨rfl, rfl, rfl, rfl, rfl, rfl⟩

/-! ## Reads of the scratch buffer -/

theorem loopCount_cast {spp : ℚ} (hs : 0 ≤ spp) : ((loopCount spp : Nat) : Int) = ⌊spp⌋ := by
  unfold loopCount truncToInt
  rw [if_pos hs]
  exact Int.toNat_of_nonneg (Int.floor_nonneg.mpr hs)

theorem loopCount_le {spp : ℚ} (hs : 0 ≤ spp) : ((loopCount spp : Nat) : ℚ) ≤ spp := by
  have h1 : (((loopCount spp : Nat) : Int) : ℚ) = ((⌊spp⌋ : Int) : ℚ) := by
    rw [loopCount_cast hs]
  have h2 : ((⌊spp⌋ : Int) : ℚ) ≤ spp := Int.floor_le _
  have h3 : (((loopCount spp : Nat) : Int) : ℚ) = ((loopCount spp : Nat) : ℚ) := by
    push_cast; rfl
  linarith

theorem window_bytes_le_bufferNeeded {r : Renderer} (hs : 0 ≤ samplesPerPixel r) :
    loopCount (samplesPerPixel r) * r.provider.channels * r.provider.bytesPerSample
      ≤ bufferNeeded r := by
  have hfl := bufferNeeded_eq_floor hs
  have h1 : ((loopCount (samplesPerPixel r) * r.provider.channels
      * r.provider.bytesPerSample : Nat) : Int) ≤ (bufferNeeded r : Int) := by
    rw [hfl, Int.le_floor]
    push_cast
    have h2 := loopCount_le hs
    have h3 : (0 : ℚ) ≤ (r.provider.channels : ℚ) * (r.provider.bytesPerSample : ℚ) :=
      mul_nonneg (Nat.cast_nonneg _) (Nat.cast_nonneg _)
    have h4 := mul_le_mul_of_nonneg_right h2 h3
    linarith
  exact_mod_cast h1

theorem channelSamples_congr {buf1 buf2 : Nat → Int} {channels c n : Nat}
    (h : ∀ frame, frame < n → buf1 (frame * channels + c) = buf2 (frame * channels + c)) :
    channelSamples buf1 channels c n = channelSamples buf2 channels c n := by
  unfold channelSamples
  apply List.map_congr_left
  intro frame hf
  exact h frame (List.mem_range.mp hf)

theorem read_index_lt {channels c n frame : Nat} (hc : c < channels) (hf : frame < n) :
    frame * channels + c < n * channels :=
  calc frame * channels + c < frame * channels + channels := by omega
    _ = (frame + 1) * channels := by ring
    _ ≤ n * channels := Nat.mul_le_mul_right _ hf

/-- C15: for every samplesPerPixel at least 0 (fractional values included), channel count
at least 1 and bytesPerSample 2, the buffer Render allocates (bufferNeeded bytes, that is
bufferNeeded / 2 samples of 16 bits) holds at least the trunc(samplesPerPixel) * channels
samples GetAudio writes for a column; every index the reduction loop of RenderSingle reads
(frame * channels) and every index the loop of RenderSeparate reads (frame * channels + c,
c below the channel count) is below the number of samples the buffer holds; and the values
both loops compute depend on the buffer below that number only. -/
theorem scratch_reads_in_bounds (r : Renderer) (hs : 0 ≤ samplesPerPixel r)
    (hc : 1 ≤ r.provider.channels) (hb : r.provider.bytesPerSample = 2) :
    loopCount (samplesPerPixel r) * r.provider.channels * 2 ≤ bufferNeeded r
    ∧ loopCount (samplesPerPixel r) * r.provider.channels ≤ bufferNeeded r / 2
    ∧ (∀ frame, frame < loopCount (samplesPerPixel r) →
        frame * r.provider.channels < bufferNeeded r / 2)
    ∧ (∀ frame c, frame < loopCount (samplesPerPixel r) → c < r.provider.channels →
        frame * r.provider.channels + c < bufferNeeded r / 2)
    ∧ (∀ buf1 buf2 : Nat → Int, (∀ i, i < bufferNeeded r / 2 → buf1 i = buf2 i) →
        reduceSingle buf1 r.provider.channels (samplesPerPixel r)
            = reduceSingle buf2 r.provider.channels (samplesPerPixel r)
        ∧ ∀ c, c < r.provider.channels →
            reduceSeparate buf1 r.provider.channels c (samplesPerPixel r)
              = reduceSeparate buf2 r.provider.channels c (samplesPerPixel r)) := by
  have hbytes := window_bytes_le_bufferNeeded hs
  rw [hb] at hbytes
  have hsamples : loopCount (samplesPerPixel r) * r.provider.channels ≤ bufferNeeded r / 2 := by
    omega
  have hidx : ∀ frame c, frame < loopCount (samplesPerPixel r) → c < r.provider.channels →
      frame * r.provider.channels + c < bufferNeeded r / 2 :=
    fun frame c hf hcc => lt_of_lt_of_le (read_index_lt hcc hf) hsamples
  refine ⟨hbytes, hsamples, ?_, hidx, ?_⟩
  · intro frame hf
    have := hidx frame 0 hf (by omega)
    simpa using this
  · intro buf1 buf2 hagree
    refine ⟨?_, fun c hcc => ?_⟩
    · rw [reduceSingle_eq_foldl, reduceSingle_eq_foldl]
      congr 1
      apply channelSamples_congr
      intro frame hf
      exact hagree _ (hidx frame 0 hf (by omega))
    · rw [reduceSeparate_eq_foldl, reduceSeparate_eq_foldl]
      congr 1
      apply channelSamples_congr
      intro frame hf
      exact hagree _ (hidx frame c hf hcc)

/-- Instance of C15: at 3/2 samples per pixel, one channel, the buffer of 3 bytes holds the
one sample of the window. -/
theorem scratch_reads_in_bounds_witness :
    loopCount (samplesPerPixel fractionalRenderer) * fractionalRenderer.provider.channels * 2
      ≤ bufferNeeded fractionalRenderer :=
  (scratch_reads_in_bounds fractionalRenderer (by decide!) (by decide) rfl).1

/-! ## What the reduction loop computes -/

theorem foldl_peak_min_ge (l : List Int) (acc : Accum) (m : Int) (hacc : m ≤ acc.peak_min)
    (h : ∀ v ∈ l, m ≤ v) : m ≤ (l.foldl accumStep acc).peak_min := by
  induction l generalizing acc with
  | nil => simpa using hacc
  | cons a t ih =>
    rw [List.foldl_cons]
    apply ih
    · unfold accumStep
      split
      · exact hacc
      · exact le_min hacc (h a (List.mem_cons_self _ _))
    · exact fun v hv => h v (List.mem_cons_of_mem _ hv)

theorem foldl_peak_min_le (l : List Int) (acc : Accum) :
    (l.foldl accumStep acc).peak_min ≤ acc.peak_min := by
  induction l generalizing acc with
  | nil => simp
  | cons a t ih =>
    rw [List.foldl_cons]
    refine le_trans (ih _) ?_
    unfold accumStep
    split
    · exact le_refl _
    · exact min_le_left _ _

theorem foldl_peak_min_le_mem (l : List Int) (acc : Accum) (v : Int) (hv : v ∈ l)
    (hneg : v ≤ 0) : (l.foldl accumStep acc).peak_min ≤ v := by
  induction l generalizing acc with
  | nil => simp at hv
  | cons a t ih =>
    rw [List.foldl_cons]
    rcases List.mem_cons.mp hv with h | h
    · subst h
      refine le_trans (foldl_peak_min_le t _) ?_
      unfold accumStep
      rw [if_neg (by omega)]
      exact min_le_right _ _
    · exact ih _ h

theorem foldl_peak_max_attained (l : List Int) (acc : Accum) :
    (l.foldl accumStep acc).peak_max = acc.peak_max ∨ (l.foldl accumStep acc).peak_max ∈ l := by
  induction l generalizing acc with
  | nil => exact Or.inl rfl
  | cons a t ih =>
    rw [List.foldl_cons]
    rcases ih (accumStep acc a) with h | h
    · rw [h]
      unfold accumStep
      split
      · rcases max_choice acc.peak_max a with hm | hm
        · exact Or.inl hm
        · right; simp only [hm]; exact List.mem_cons_self _ _
      · exact Or.inl rfl
    · exact Or.inr (List.mem_cons_of_mem _ h)

theorem foldl_peak_min_attained (l : List Int) (acc : Accum) :
    (l.foldl accumStep acc).peak_min = acc.peak_min ∨ (l.foldl accumStep acc).peak_min ∈ l := by
  induction l generalizing acc with
  | nil => exact Or.inl rfl
  | cons a t ih =>
    rw [List.foldl_cons]
    rcases ih (accumStep acc a) with h | h
    · rw [h]
      unfold accumStep
      split
      · exact Or.inl rfl
      · rcases min_choice acc.peak_min a with hm | hm
        · exact Or.inl hm
        · right; simp only [hm]; exact List.mem_cons_self _ _
    · exact Or.inr (List.mem_cons_of_mem _ h)

theorem foldl_avg_accum (l : List Int) (acc : Accum) :
    (l.foldl accumStep acc).avg_max_accum
        = acc.avg_max_accum + (l.filter (fun v => decide (0 < v))).sum
    ∧ (l.foldl accumStep acc).avg_min_accum
        = acc.avg_min_accum + (l.filter (fun v => decide (v < 0))).sum := by
  induction l generalizing acc with
  | nil => simp
  | cons a t ih =>
    rw [List.foldl_cons]
    obtain ⟨h1, h2⟩ := ih (accumStep acc a)
    rw [h1, h2]
    unfold accumStep
    by_cases ha : a > 0
    · have hn : ¬ a < 0 := by omega
      refine ⟨?_, ?_⟩
      · simp [ha, List.filter_cons]
        omega
      · simp [ha, hn, List.filter_cons]
    · by_cases hz : a < 0
      · refine ⟨?_, ?_⟩
        · simp [ha, hz, List.filter_cons]
        · simp [ha, hz, List.filter_cons]
          omega
      · have h0 : a = 0 := by omega
        subst h0
        simp

theorem filter_pos_neg_sum (l : List Int) :
    (l.filter (fun v => decide (v < 0))).sum + (l.filter (fun v => decide (0 < v))).sum
      = l.sum := by
  induction l with
  | nil => rfl
  | cons a t ih =>
    simp only [List.filter_cons, List.sum_cons]
    by_cases hp : 0 < a
    · have hn : ¬ a < 0 := by omega
      simp only [hp, hn, decide_True, decide_False, if_true, List.sum_cons]
      simp only [Bool.false_eq_true, if_false]
      omega
    · by_cases hz : a < 0
      · simp only [hp, hz, decide_True, decide_False, if_true, List.sum_cons]
        simp only [Bool.false_eq_true, if_false]
        omega
      · have h0 : a = 0 := by omega
        subst h0
        simpa using ih

/-- C16: for every channel count, channel index c and interleaved window of
n = trunc(samplesPerPixel) frames, with l the samples at indices frame * channels + c, the
raw values RenderSeparate computes for channel c are: peak_max the largest of 0 and the
samples of l (an upper bound of them that is 0 or one of them), peak_min the smallest of 0
and the samples of l, avg_max_accum the sum of the positive samples of l, avg_min_accum the
sum of the negative ones; avg_min_accum + avg_max_accum is the sum of l; and the values
are the same for any buffer with the same samples of channel c. -/
theorem separate_reduction_per_channel (buf : Nat → Int) (channels c : Nat) (spp : ℚ) :
    ((∀ v ∈ channelSamples buf channels c (loopCount spp),
          v ≤ (reduceSeparate buf channels c spp).peak_max)
      ∧ 0 ≤ (reduceSeparate buf channels c spp).peak_max
      ∧ ((reduceSeparate buf channels c spp).peak_max = 0
          ∨ (reduceSeparate buf channels c spp).peak_max
              ∈ channelSamples buf channels c (loopCount spp)))
    ∧ ((∀ v ∈ channelSamples buf channels c (loopCount spp),
          (reduceSeparate buf channels c spp).peak_min ≤ v)
      ∧ (reduceSeparate buf channels c spp).peak_min ≤ 0
      ∧ ((reduceSeparate buf channels c spp).peak_min = 0
          ∨ (reduceSeparate buf channels c spp).peak_min
              ∈ channelSamples buf channels c (loopCount spp)))
    ∧ (reduceSeparate buf channels c spp).avg_max_accum
        = ((channelSamples buf channels c (loopCount spp)).filter
            (fun v => decide (0 < v))).sum
    ∧ (reduceSeparate buf channels c spp).avg_min_accum
        = ((channelSamples buf channels c (loopCount spp)).filter
            (fun v => decide (v < 0))).sum
    ∧ (reduceSeparate buf channels c spp).avg_min_accum
        + (reduceSeparate buf channels c spp).avg_max_accum
        = (channelSamples buf channels c (loopCount spp)).sum
    ∧ (∀ buf2 : Nat → Int,
        (∀ frame, frame < loopCount spp →
          buf2 (frame * channels + c) = buf (frame * channels + c)) →
        reduceSeparate buf2 channels c spp = reduceSeparate buf channels c spp) := by
  have hsig : (reduceSeparate buf channels c spp).Signed :=
    reduceLoop_signed buf channels c _ 0 _ zero_signed
  obtain ⟨s1, s2, _, _⟩ := hsig
  have havg := foldl_avg_accum (channelSamples buf channels c (loopCount spp)) Accum.zero
  rw [← reduceSeparate_eq_foldl] at havg
  have hmax : (reduceSeparate buf channels c spp).avg_max_accum
      = ((channelSamples buf channels c (loopCount spp)).filter
          (fun v => decide (0 < v))).sum := by
    rw [havg.1]; simp [Accum.zero]
  have hmin : (reduceSeparate buf channels c spp).avg_min_accum
      = ((channelSamples buf channels c (loopCount spp)).filter
          (fun v => decide (v < 0))).sum := by
    rw [havg.2]; simp [Accum.zero]
  refine ⟨⟨?_, s2, ?_⟩, ⟨?_, s1, ?_⟩, hmax, hmin, ?_, ?_⟩
  · intro v hv
    by_cases hpos : 0 < v
    · rw [reduceSeparate_eq_foldl]
      exact le_foldl_peak_max _ _ v hv hpos
    · omega
  · rw [reduceSeparate_eq_foldl]
    exact foldl_peak_max_attained _ Accum.zero
  · intro v hv
    by_cases hneg : v ≤ 0
    · rw [reduceSeparate_eq_foldl]
      exact foldl_peak_min_le_mem _ _ v hv hneg
    · omega
  · rw [reduceSeparate_eq_foldl]
    exact foldl_peak_min_attained _ Accum.zero
  · rw [hmax, hmin]
    exact filter_pos_neg_sum _
  · intro buf2 h
    rw [reduceSeparate_eq_foldl, reduceSeparate_eq_foldl, channelSamples_congr h]

/-! ## Sums of the accumulators against the peaks -/

theorem foldl_avg_bounded (l : List Int) (acc : Accum) (k : Nat) (hsig : acc.Signed)
    (hmax : acc.avg_max_accum ≤ (k : Int) * acc.peak_max)
    (hmin : (k : Int) * acc.peak_min ≤ acc.avg_min_accum) :
    (l.foldl accumStep acc).avg_max_accum
        ≤ ((k + l.length : Nat) : Int) * (l.foldl accumStep acc).peak_max
    ∧ ((k + l.length : Nat) : Int) * (l.foldl accumStep acc).peak_min
        ≤ (l.foldl accumStep acc).avg_min_accum := by
  induction l generalizing acc k with
  | nil => simpa using ⟨hmax, hmin⟩
  | cons a t ih =>
    rw [List.foldl_cons]
    have hstep := accumStep_signed hsig a
    obtain ⟨s1, s2, _, _⟩ := hsig
    have hk : (0 : Int) ≤ (k : Int) := Int.ofNat_nonneg k
    have hlen : k + (a :: t).length = (k + 1) + t.length := by
      simp only [List.length_cons]; omega
    rw [hlen]
    apply ih (accumStep acc a) (k + 1) hstep
    · unfold accumStep
      split
      · simp only
        have h1 : acc.peak_max ≤ max acc.peak_max a := le_max_left _ _
        have h2 : a ≤ max acc.peak_max a := le_max_right _ _
        have h3 : (k : Int) * acc.peak_max ≤ (k : Int) * max acc.peak_max a :=
          Int.mul_le_mul_of_nonneg_left h1 hk
        push_cast
        linarith
      · simp only
        push_cast
        linarith
    · unfold accumStep
      split
      · simp only
        push_cast
        linarith
      · simp only
        have h1 : min acc.peak_min a ≤ acc.peak_min := min_le_left _ _
        have h2 : min acc.peak_min a ≤ a := min_le_right _ _
        have h3 : (k : Int) * min acc.peak_min a ≤ (k : Int) * acc.peak_min :=
          Int.mul_le_mul_of_nonneg_left h1 hk
        push_cast
        linarith

theorem scaled_avg_between {S P S' P' k spp : ℚ} (hk : 0 ≤ k) (hs : 0 < spp)
    (hP : 0 ≤ P) (hP' : P' ≤ 0) (hS : 0 ≤ S) (hS' : S' ≤ 0)
    (h1 : S ≤ spp * P) (h2 : spp * P' ≤ S') :
    P' * k ≤ S' * k / spp ∧ S' * k / spp ≤ 0 ∧ 0 ≤ S * k / spp ∧ S * k / spp ≤ P * k := by
  have hPk : 0 ≤ P * k := mul_nonneg hP hk
  have _ := hP'
  refine ⟨?_, ?_, ?_, ?_⟩
  · rw [le_div_iff₀ hs]
    have := mul_le_mul_of_nonneg_right h2 hk
    linarith
  · exact div_nonpos_of_nonpos_of_nonneg (mul_nonpos_of_nonpos_of_nonneg hS' hk) hs.le
  · exact div_nonneg (mul_nonneg hS hk) hs.le
  · rw [div_le_iff₀ hs]
    have := mul_le_mul_of_nonneg_right h1 hk
    linarith

/-! ## Windows of different columns -/

theorem windowAt_end_le {spp : ℚ} (hs : 0 ≤ spp) {p q : Int} (hp : 0 ≤ p) (hpq : p < q) :
    (windowAt spp p).1 + (windowAt spp p).2 ≤ (windowAt spp q).1 := by
  have hpQ : (0 : ℚ) ≤ (p : ℚ) := by exact_mod_cast hp
  have hq1 : (p : ℚ) + 1 ≤ (q : ℚ) := by exact_mod_cast hpq
  have h1 : 0 ≤ (p : ℚ) * spp := mul_nonneg hpQ hs
  have h2 : 0 ≤ (q : ℚ) * spp := mul_nonneg (by linarith) hs
  simp only [windowAt, truncToInt, if_pos h1, if_pos h2, if_pos hs]
  rw [Int.le_floor]
  push_cast
  have h3 := Int.floor_le ((p : ℚ) * spp)
  have h4 := Int.floor_le spp
  have h5 : ((p : ℚ) + 1) * spp ≤ (q : ℚ) * spp := mul_le_mul_of_nonneg_right hq1 hs
  linarith

theorem getD_windows_Render {C : Type} (r : Renderer) (colors : Nat → ℚ → C)
    (width height start : Int) (style : Nat) (hb : r.provider.bytesPerSample = 2)
    {i : Nat} (hi : i < width.toNat) :
    (windows (Render r colors width height start style).events).getD i (0, 0)
      = windowAt (samplesPerPixel r) (start + (i : Int)) := by
  rw [windows_Render r colors width height start style hb]
  have hlen : i < ((List.range width.toNat).map (fun x : Nat =>
      windowAt (samplesPerPixel r) (start + (x : Int)))).length := by
    simpa using hi
  rw [List.getD_eq_getElem _ _ hlen]
  simp

/-- C18: for every start pixel at least 0, every width and every samplesPerPixel at least 0
(an exact rational), a render reads one window per column, and for two different columns
i < j of the render the window of column i ends (first sample + count) at or before the
first sample of the window of column j; so no sample index lies in the windows of two
different columns. -/
theorem column_windows_disjoint {C : Type} (r : Renderer) (colors : Nat → ℚ → C)
    (width height start : Int) (style : Nat) (hb : r.provider.bytesPerSample = 2)
    (hstart : 0 ≤ start) (hs : 0 ≤ samplesPerPixel r) :
    (windows (Render r colors width height start style).events).length = width.toNat
    ∧ (∀ i j : Nat, i < j → j < width.toNat →
        ((windows (Render r colors width height start style).events).getD i (0, 0)).1
          + ((windows (Render r colors width height start style).events).getD i (0, 0)).2
          ≤ ((windows (Render r colors width height start style).events).getD j (0, 0)).1)
    ∧ (∀ i j : Nat, i < width.toNat → j < width.toNat → i ≠ j → ∀ s : Int,
        ¬ ((((windows (Render r colors width height start style).events).getD i (0, 0)).1 ≤ s
            ∧ s < ((windows (Render r colors width height start style).events).getD i (0, 0)).1
              + ((windows (Render r colors width height start style).events).getD i (0, 0)).2)
          ∧ (((windows (Render r colors width height start style).events).getD j (0, 0)).1 ≤ s
            ∧ s < ((windows (Render r colors width height start style).events).getD j (0, 0)).1
              + ((windows (Render r colors width height start style).events).getD j (0, 0)).2))) := by
  have hord : ∀ i j : Nat, i < j → j < width.toNat →
      ((windows (Render r colors width height start style).events).getD i (0, 0)).1
        + ((windows (Render r colors width height start style).events).getD i (0, 0)).2
        ≤ ((windows (Render r colors width height start style).events).getD j (0, 0)).1 := by
    intro i j hij hj
    rw [getD_windows_Render r colors width height start style hb (lt_trans hij hj),
      getD_windows_Render r colors width height start style hb hj]
    exact windowAt_end_le hs (by omega) (by omega)
  refine ⟨?_, hord, ?_⟩
  · rw [windows_Render r colors width height start style hb]
    simp
  · intro i j hi hj hne s hboth
    obtain ⟨⟨a1, a2⟩, ⟨b1, b2⟩⟩ := hboth
    rcases Nat.lt_or_gt_of_ne hne with hlt | hgt
    · have := hord i j hlt hj
      omega
    · have := hord j i hgt hi
      omega

/-- Instance of C18: columns 0 and 2 of a render of three columns from pixel 2 at 3/2
samples per pixel. -/
theorem column_windows_disjoint_witness :
    ((windows (Render ({ silentRenderer 1 false false with pixel_ms := 3 / 2 })
        (fun _ q => q) 3 4 2 0).events).getD 0 (0, 0)).1
      + ((windows (Render ({ silentRenderer 1 false false with pixel_ms := 3 / 2 })
        (fun _ q => q) 3 4 2 0).events).getD 0 (0, 0)).2
      ≤ ((windows (Render ({ silentRenderer 1 false false with pixel_ms := 3 / 2 })
        (fun _ q => q) 3 4 2 0).events).getD 2 (0, 0)).1 :=
  (column_windows_disjoint ({ silentRenderer 1 false false with pixel_ms := 3 / 2 })
    (fun _ q => q) 3 4 2 0 rfl (by norm_num) (by decide!)).2.1 0 2 (by norm_num) (by decide)

/-! ## One channel: the two layouts -/

theorem midpointSeparate_one_eq_single {height : Int} (hh : 0 ≤ height) :
    midpointSeparate height 1 0 = midpointSingle height := by
  rw [midpointSeparate_one hh]
  exact (Int.tdiv_eq_ediv hh (by norm_num)).symm

/-- C19: for a provider with exactly 1 channel, every height at least 0, every amplitude
scale, samplesPerPixel above 0 and buffer contents (hence every start pixel and sample
data), RenderSeparate uses the midpoint height / 2 of RenderSingle and computes for the
column the same four scaled values peak_min, peak_max, avg_min, avg_max as RenderSingle;
and the two layouts read the same windows, column by column. -/
theorem mono_layouts_agree {C : Type} (buf : Nat → Int) (height : Int)
    (amplitude_scale spp : ℚ) (hh : 0 ≤ height) (hs : 0 < spp) :
    midpointSeparate height 1 0 = midpointSingle height
    ∧ columnSeparate buf 1 0 amplitude_scale spp height
        = columnSingle buf 1 amplitude_scale spp height
    ∧ (∀ (r : Renderer) (colors : Nat → ℚ → C) (width start : Int) (style : Nat),
        r.provider.bytesPerSample = 2 →
        windows (RenderSeparate r colors width height start style).events
          = windows (RenderSingle r colors width height start style).events) := by
  have _ := hs
  have hmid := midpointSeparate_one_eq_single hh
  refine ⟨hmid, ?_, ?_⟩
  · unfold columnSeparate columnSingle reduceSeparate reduceSingle
    rw [hmid]
    simp [scaleSeparate, scaleSingle]
  · intro r colors width start style hb
    unfold RenderSeparate RenderSingle
    simp only [hb, if_true, windows_append, windows_ensureBufferEvents, windows_zeroLines,
      windows_separatorLines, windows_separateColumns, windows_singleColumns,
      List.append_nil]

/-- Instance of C19: a mono window of two samples, height 100. -/
theorem mono_layouts_agree_witness :
    columnSeparate (fun i => if i = 0 then 30000 else -7) 1 0 2 (5 / 2) 100
      = columnSingle (fun i => if i = 0 then 30000 else -7) 1 2 (5 / 2) 100 :=
  (mono_layouts_agree (C := ℚ) (fun i => if i = 0 then 30000 else -7) 100 2 (5 / 2)
    (by norm_num) (by norm_num)).2.1

/-! ## Rounding to nearest -/

theorem expSearchUp_le (q : ℚ) (fuel k : Nat) (h : (2 : ℚ) ^ k ≤ q) :
    (2 : ℚ) ^ expSearchUp q fuel k ≤ q := by
  induction fuel generalizing k with
  | zero => simpa [expSearchUp] using h
  | succ n ih =>
    rw [expSearchUp]
    split
    · exact ih (k + 1) (by assumption)
    · exact h

theorem expSearchUp_lt (q : ℚ) (fuel k : Nat) (h : q < (2 : ℚ) ^ (k + fuel + 1)) :
    q < (2 : ℚ) ^ (expSearchUp q fuel k + 1) := by
  induction fuel generalizing k with
  | zero => simpa [expSearchUp] using h
  | succ n ih =>
    rw [expSearchUp]
    split
    · apply ih (k + 1)
      have e : k + 1 + n + 1 = k + (n + 1) + 1 := by omega
      rw [e]; exact h
    · exact lt_of_not_le (by assumption)

theorem expSearchDown_le (q : ℚ) (fuel k : Nat) (h : ((2 : ℚ) ^ (k + fuel))⁻¹ ≤ q) :
    ((2 : ℚ) ^ expSearchDown q fuel k)⁻¹ ≤ q := by
  induction fuel generalizing k with
  | zero => simpa [expSearchDown] using h
  | succ n ih =>
    rw [expSearchDown]
    split
    · assumption
    · apply ih (k + 1)
      have e : k + 1 + n = k + (n + 1) := by omega
      rw [e]; exact h

theorem expSearchDown_lt (q : ℚ) (fuel k : Nat) (hk : 1 ≤ k)
    (h : q < ((2 : ℚ) ^ (k - 1))⁻¹) (hfuel : ((2 : ℚ) ^ (k + fuel))⁻¹ ≤ q) :
    q < ((2 : ℚ) ^ (expSearchDown q fuel k - 1))⁻¹ ∧ 1 ≤ expSearchDown q fuel k := by
  induction fuel generalizing k with
  | zero => simpa [expSearchDown] using ⟨h, hk⟩
  | succ n ih =>
    rw [expSearchDown]
    split
    · exact ⟨h, hk⟩
    · apply ih (k + 1) (by omega)
      · simpa using lt_of_not_le (by assumption)
      · have e : k + 1 + n = k + (n + 1) := by omega
        rw [e]; exact hfuel

theorem abs_eq_natAbs_div_den (q : ℚ) : |q| = (q.num.natAbs : ℚ) / (q.den : ℚ) := by
  have h := Rat.num_div_den q
  have hd : (0 : ℚ) < (q.den : ℚ) := by exact_mod_cast q.den_pos
  conv_lhs => rw [← h]
  rw [abs_div, abs_of_pos hd]
  congr 1
  rw [← Int.cast_abs, Int.abs_eq_natAbs, Int.cast_natCast]

theorem natCast_lt_two_pow (n : Nat) : (n : ℚ) < (2 : ℚ) ^ n := by
  exact_mod_cast Nat.lt_two_pow n

theorem binaryExponent_spec {q : ℚ} (hq : q ≠ 0) :
    (2 : ℚ) ^ binaryExponent q ≤ |q| ∧ |q| < (2 : ℚ) ^ (binaryExponent q + 1) := by
  have habs := abs_eq_natAbs_div_den q
  have hd : (0 : ℚ) < (q.den : ℚ) := by exact_mod_cast q.den_pos
  have hd1 : (1 : ℚ) ≤ (q.den : ℚ) := by exact_mod_cast q.den_pos
  have hn : (1 : ℚ) ≤ (q.num.natAbs : ℚ) := by
    have : q.num ≠ 0 := Rat.num_ne_zero.mpr hq
    have : 0 < q.num.natAbs := Int.natAbs_pos.mpr this
    exact_mod_cast this
  unfold binaryExponent
  split
  · rename_i h1
    constructor
    · rw [zpow_natCast]
      exact expSearchUp_le _ _ 0 (by simpa using h1)
    · have hlt : |q| < (2 : ℚ) ^ (0 + q.num.natAbs + 1) := by
        have h2 : |q| ≤ (q.num.natAbs : ℚ) := by
          rw [habs]
          exact div_le_self (by linarith) hd1
        have h3 := natCast_lt_two_pow q.num.natAbs
        have h4 : (2 : ℚ) ^ q.num.natAbs ≤ (2 : ℚ) ^ (0 + q.num.natAbs + 1) :=
          pow_le_pow_right₀ (by norm_num) (by omega)
        linarith
      have := expSearchUp_lt _ _ 0 hlt
      have e : ((expSearchUp |q| q.num.natAbs 0 : Nat) : Int) + 1
          = ((expSearchUp |q| q.num.natAbs 0 + 1 : Nat) : Int) := by push_cast; ring
      rw [e, zpow_natCast]
      exact this
  · rename_i h1
    have hlt1 : |q| < 1 := lt_of_not_le h1
    have hfuel : ((2 : ℚ) ^ (1 + q.den))⁻¹ ≤ |q| := by
      rw [habs]
      have h2 : (q.den : ℚ) < (2 : ℚ) ^ (1 + q.den) := by
        have h3 := natCast_lt_two_pow q.den
        have h4 : (2 : ℚ) ^ q.den ≤ (2 : ℚ) ^ (1 + q.den) :=
          pow_le_pow_right₀ (by norm_num) (by omega)
        linarith
      have h5 : ((2 : ℚ) ^ (1 + q.den))⁻¹ ≤ ((q.den : ℚ))⁻¹ :=
        inv_anti₀ hd h2.le
      have h6 : ((q.den : ℚ))⁻¹ ≤ (q.num.natAbs : ℚ) / (q.den : ℚ) := by
        rw [div_eq_mul_inv]
        have hinv : (0 : ℚ) ≤ ((q.den : ℚ))⁻¹ := inv_nonneg.mpr hd.le
        nlinarith
      linarith
    have hle := expSearchDown_le |q| q.den 1 hfuel
    have hlt := expSearchDown_lt |q| q.den 1 le_rfl (by simpa using hlt1) hfuel
    constructor
    · rw [zpow_neg, zpow_natCast]
      exact hle
    · obtain ⟨h7, h8⟩ := hlt
      have e : -((expSearchDown |q| q.den 1 : Nat) : Int) + 1
          = -((expSearchDown |q| q.den 1 - 1 : Nat) : Int) := by
        rw [Nat.cast_sub h8]; push_cast; ring
      rw [e, zpow_neg, zpow_natCast]
      exact h7
theorem roundHalfEven_error (m : ℚ) : |((roundHalfEven m : Int) : ℚ) - m| ≤ 1 / 2 := by
  have h1 : ((⌊m⌋ : Int) : ℚ) ≤ m := Int.floor_le m
  have h2 : m < ((⌊m⌋ : Int) : ℚ) + 1 := Int.lt_floor_add_one m
  unfold roundHalfEven
  rw [abs_le]
  split
  · constructor <;> linarith
  · split
    · push_cast; constructor <;> linarith
    · have h3 : m - ((⌊m⌋ : Int) : ℚ) = 1 / 2 := by
        apply le_antisymm <;> linarith
      split
      · constructor <;> linarith
      · push_cast; constructor <;> linarith

theorem roundHalfEven_intCast (z : Int) : roundHalfEven (z : ℚ) = z := by
  unfold roundHalfEven
  simp

theorem two_zpow_pos (e : Int) : (0 : ℚ) < (2 : ℚ) ^ e :=
  zpow_pos (by norm_num) e

theorem roundNearest_error (p : Nat) (q : ℚ) :
    |roundNearest p q - q| ≤ |q| / 2 ^ p := by
  unfold roundNearest
  split
  · rename_i h0
    simp [h0]
  · rename_i h0
    have hs := two_zpow_pos (binaryExponent q - ((p : Int) - 1))
    have herr := roundHalfEven_error (q / (2 : ℚ) ^ (binaryExponent q - ((p : Int) - 1)))
    have hexp := (binaryExponent_spec h0).1
    set s := (2 : ℚ) ^ (binaryExponent q - ((p : Int) - 1)) with hsdef
    have h1 : ((roundHalfEven (q / s) : Int) : ℚ) * s - q
        = (((roundHalfEven (q / s) : Int) : ℚ) - q / s) * s := by
      field_simp
    rw [h1, abs_mul, abs_of_pos hs]
    have h2 : s / 2 = (2 : ℚ) ^ binaryExponent q / 2 ^ p := by
      rw [hsdef]
      have e1 : binaryExponent q - ((p : Int) - 1) = binaryExponent q + (-(p : Int)) + 1 := by
        ring
      rw [e1, zpow_add₀ (by norm_num), zpow_add₀ (by norm_num), zpow_neg, zpow_natCast, zpow_one]
      field_simp
      ring
    have h3 : (2 : ℚ) ^ binaryExponent q / 2 ^ p ≤ |q| / 2 ^ p :=
      div_le_div_of_nonneg_right hexp (by positivity)
    have h4 : |((roundHalfEven (q / s) : Int) : ℚ) - q / s| * s ≤ 1 / 2 * s :=
      mul_le_mul_of_nonneg_right herr hs.le
    linarith

theorem roundNearest_zero (p : Nat) : roundNearest p 0 = 0 := by
  simp [roundNearest]

theorem roundNearest_intCast (p : Nat) (z : Int) (hz : |z| < 2 ^ p) :
    roundNearest p (z : ℚ) = z := by
  by_cases h0 : (z : ℚ) = 0
  · rw [h0, roundNearest_zero]
  · unfold roundNearest
    rw [if_neg h0]
    have hexp := (binaryExponent_spec h0).1
    have hzq : |(z : ℚ)| < (2 : ℚ) ^ (p : Int) := by
      rw [zpow_natCast]
      have : ((|z| : Int) : ℚ) < ((2 ^ p : Int) : ℚ) := by exact_mod_cast hz
      simpa using this
    have hlt : (2 : ℚ) ^ binaryExponent (z : ℚ) < (2 : ℚ) ^ (p : Int) := lt_of_le_of_lt hexp hzq
    have he : binaryExponent (z : ℚ) < (p : Int) :=
      (zpow_lt_zpow_iff_right₀ (by norm_num : (1 : ℚ) < 2)).mp hlt
    obtain ⟨k, hk⟩ : ∃ k : Nat, binaryExponent (z : ℚ) - ((p : Int) - 1) = -(k : Int) :=
      ⟨((p : Int) - 1 - binaryExponent (z : ℚ)).toNat, by
        rw [Int.toNat_of_nonneg (by omega)]; ring⟩
    rw [hk, zpow_neg, zpow_natCast]
    have h2 : (z : ℚ) / ((2 : ℚ) ^ k)⁻¹ = ((z * 2 ^ k : Int) : ℚ) := by
      push_cast
      field_simp
    rw [h2, roundHalfEven_intCast]
    push_cast
    field_simp

theorem roundFactor_pos : 0 < roundFactor := by
  norm_num [roundFactor]

theorem roundFactor_le_one : roundFactor ≤ 1 := by
  norm_num [roundFactor]

theorem roundFactor_pow_pos (n : Nat) : 0 < roundFactor ^ n :=
  pow_pos roundFactor_pos n

theorem roundNearest_factor (p : Nat) (hp : 24 ≤ p) (q : ℚ) :
    ∃ θ : ℚ, roundFactor ≤ θ ∧ θ ≤ roundFactor⁻¹ ∧ roundNearest p q = θ * q := by
  have hu : (1 : ℚ) / 2 ^ p ≤ 1 / 2 ^ 24 := by
    apply one_div_le_one_div_of_le (by positivity)
    exact pow_le_pow_right₀ (by norm_num) hp
  have hup : (1 : ℚ) + 1 / 2 ^ 24 ≤ roundFactor⁻¹ := by
    norm_num [roundFactor]
  by_cases h0 : q = 0
  · refine ⟨1, roundFactor_le_one, ?_, by simp [h0, roundNearest_zero]⟩
    rw [le_inv_comm₀ (by norm_num) roundFactor_pos]
    simpa using roundFactor_le_one
  · have herr := roundNearest_error p q
    have hq : 0 < |q| := abs_pos.mpr h0
    refine ⟨roundNearest p q / q, ?_, ?_, by field_simp⟩
    · have h1 : |roundNearest p q / q - 1| ≤ 1 / 2 ^ p := by
        have : roundNearest p q / q - 1 = (roundNearest p q - q) / q := by field_simp
        rw [this, abs_div, div_le_iff₀ hq]
        calc |roundNearest p q - q| ≤ |q| / 2 ^ p := herr
          _ = 1 / 2 ^ p * |q| := by ring
      have h2 := (abs_le.mp h1).1
      unfold roundFactor
      linarith
    · have h1 : |roundNearest p q / q - 1| ≤ 1 / 2 ^ p := by
        have : roundNearest p q / q - 1 = (roundNearest p q - q) / q := by field_simp
        rw [this, abs_div, div_le_iff₀ hq]
        calc |roundNearest p q - q| ≤ |q| / 2 ^ p := herr
          _ = 1 / 2 ^ p * |q| := by ring
      have h2 := (abs_le.mp h1).2
      linarith

/-! ## Values up to roundings -/

theorem rounded_refl (t : ℚ) : Rounded 0 t t :=
  ⟨1, by simp, by simp, by simp⟩

theorem rounded_of_eq {n : Nat} {v t t2 : ℚ} (h : Rounded n v t) (e : t = t2) : Rounded n v t2 :=
  e ▸ h

theorem rounded_mono {n k : Nat} {v t : ℚ} (hnk : n ≤ k) (h : Rounded n v t) : Rounded k v t := by
  obtain ⟨θ, h1, h2, h3⟩ := h
  have hp : roundFactor ^ k ≤ roundFactor ^ n :=
    pow_le_pow_of_le_one roundFactor_pos.le roundFactor_le_one hnk
  refine ⟨θ, le_trans hp h1, le_trans h2 ?_, h3⟩
  exact inv_anti₀ (roundFactor_pow_pos k) hp

theorem rounded_round (p : Nat) (hp : 24 ≤ p) {n : Nat} {v t : ℚ} (h : Rounded n v t) :
    Rounded (n + 1) (roundNearest p v) t := by
  obtain ⟨θ, h1, h2, h3⟩ := h
  obtain ⟨φ, g1, g2, g3⟩ := roundNearest_factor p hp v
  have hθ : 0 < θ := lt_of_lt_of_le (roundFactor_pow_pos n) h1
  have hφ : 0 < φ := lt_of_lt_of_le roundFactor_pos g1
  refine ⟨φ * θ, ?_, ?_, by rw [g3, h3]; ring⟩
  · rw [pow_succ, mul_comm]
    exact mul_le_mul g1 h1 (roundFactor_pow_pos n).le hφ.le
  · rw [pow_succ, mul_inv, mul_comm (roundFactor ^ n)⁻¹]
    exact mul_le_mul g2 h2 hθ.le (inv_nonneg.mpr roundFactor_pos.le)

theorem rounded_float {n : Nat} {v t : ℚ} (h : Rounded n v t) :
    Rounded (n + 1) (roundFloat v) t :=
  rounded_round 24 le_rfl h

theorem rounded_double {n : Nat} {v t : ℚ} (h : Rounded n v t) :
    Rounded (n + 1) (roundDouble v) t :=
  rounded_round 53 (by norm_num) h

theorem rounded_mul {n k : Nat} {v t w s : ℚ} (h : Rounded n v t) (g : Rounded k w s) :
    Rounded (n + k) (v * w) (t * s) := by
  obtain ⟨θ, h1, h2, h3⟩ := h
  obtain ⟨φ, g1, g2, g3⟩ := g
  have hθ : 0 < θ := lt_of_lt_of_le (roundFactor_pow_pos n) h1
  have hφ : 0 < φ := lt_of_lt_of_le (roundFactor_pow_pos k) g1
  refine ⟨θ * φ, ?_, ?_, by rw [h3, g3]; ring⟩
  · rw [pow_add]
    exact mul_le_mul h1 g1 (roundFactor_pow_pos k).le hθ.le
  · rw [pow_add, mul_inv]
    exact mul_le_mul h2 g2 hφ.le (inv_nonneg.mpr (roundFactor_pow_pos n).le)

theorem rounded_div {n k : Nat} {v t w s : ℚ} (h : Rounded n v t) (g : Rounded k w s) :
    Rounded (n + k) (v / w) (t / s) := by
  obtain ⟨θ, h1, h2, h3⟩ := h
  obtain ⟨φ, g1, g2, g3⟩ := g
  have hθ : 0 < θ := lt_of_lt_of_le (roundFactor_pow_pos n) h1
  have hφ : 0 < φ := lt_of_lt_of_le (roundFactor_pow_pos k) g1
  have hn := roundFactor_pow_pos n
  have hk := roundFactor_pow_pos k
  refine ⟨θ / φ, ?_, ?_, ?_⟩
  · rw [pow_add, le_div_iff₀ hφ]
    calc roundFactor ^ n * roundFactor ^ k * φ
        ≤ roundFactor ^ n * roundFactor ^ k * (roundFactor ^ k)⁻¹ :=
          mul_le_mul_of_nonneg_left g2 (mul_pos hn hk).le
      _ = roundFactor ^ n := by field_simp
      _ ≤ θ := h1
  · rw [pow_add, mul_inv, div_le_iff₀ hφ]
    calc θ ≤ (roundFactor ^ n)⁻¹ := h2
      _ = (roundFactor ^ n)⁻¹ * (roundFactor ^ k)⁻¹ * roundFactor ^ k := by field_simp
      _ ≤ (roundFactor ^ n)⁻¹ * (roundFactor ^ k)⁻¹ * φ :=
          mul_le_mul_of_nonneg_left g1
            (mul_nonneg (inv_nonneg.mpr hn.le) (inv_nonneg.mpr hk.le))
  · rw [h3, g3]
    by_cases hs : s = 0
    · simp [hs]
    · field_simp

theorem rounded_neg {n : Nat} {v t : ℚ} (h : Rounded n v t) : Rounded n (-v) (-t) := by
  obtain ⟨θ, h1, h2, h3⟩ := h
  exact ⟨θ, h1, h2, by rw [h3]; ring⟩

theorem rounded_nonneg {n : Nat} {v t : ℚ} (h : Rounded n v t) (ht : 0 ≤ t) : 0 ≤ v := by
  obtain ⟨θ, h1, _, h3⟩ := h
  rw [h3]
  exact mul_nonneg (le_trans (roundFactor_pow_pos n).le h1) ht

theorem rounded_nonpos {n : Nat} {v t : ℚ} (h : Rounded n v t) (ht : t ≤ 0) : v ≤ 0 := by
  have := rounded_nonneg (rounded_neg h) (by linarith)
  linarith

theorem rounded_peakOperandSingle (v : Int) (a : ℚ) (m : Int) :
    Rounded 7 (peakOperandSingle v a m) ((v : ℚ) * (a * (m : ℚ))) := by
  have h1 : Rounded 1 (roundFloat (v : ℚ)) (v : ℚ) := rounded_float (rounded_refl _)
  have h2 := rounded_float (rounded_mul h1 (rounded_refl a))
  have h3 : Rounded 1 (roundFloat (m : ℚ)) (m : ℚ) := rounded_float (rounded_refl _)
  have h4 := rounded_float (rounded_mul h2 h3)
  exact rounded_mono (by norm_num) (rounded_of_eq h4 (by ring))

theorem rounded_avgOperandSingle (v : Int) (a : ℚ) (m : Int) (spp : ℚ) :
    Rounded 7 (avgOperandSingle v a m spp) ((v : ℚ) * (a * (m : ℚ)) / spp) := by
  have h1 : Rounded 1 (roundFloat (v : ℚ)) (v : ℚ) := rounded_float (rounded_refl _)
  have h2 := rounded_float (rounded_mul h1 (rounded_refl a))
  have h3 : Rounded 1 (roundFloat (m : ℚ)) (m : ℚ) := rounded_float (rounded_refl _)
  have h4 := rounded_float (rounded_mul h2 h3)
  have h5 := rounded_double (rounded_div h4 (rounded_refl spp))
  exact rounded_mono (by norm_num) (rounded_of_eq h5 (by ring))

theorem rounded_peakOperandSeparate (v : Int) (a : ℚ) (channels : Nat) (m : Int) :
    Rounded 7 (peakOperandSeparate v a channels m)
      ((v : ℚ) * (a / (channels : ℚ) * (m : ℚ))) := by
  have h1 : Rounded 1 (roundFloat (v : ℚ)) (v : ℚ) := rounded_float (rounded_refl _)
  have h2 := rounded_float (rounded_mul h1 (rounded_refl a))
  have hc : Rounded 1 (roundFloat (channels : ℚ)) (channels : ℚ) :=
    rounded_float (rounded_refl _)
  have h3 := rounded_float (rounded_div h2 hc)
  have hm : Rounded 1 (roundFloat (m : ℚ)) (m : ℚ) := rounded_float (rounded_refl _)
  have h4 := rounded_float (rounded_mul h3 hm)
  exact rounded_mono (by norm_num) (rounded_of_eq h4 (by ring))

theorem rounded_avgOperandSeparate (v : Int) (a : ℚ) (channels : Nat) (m : Int) (spp : ℚ) :
    Rounded 7 (avgOperandSeparate v a channels m spp)
      ((v : ℚ) * (a / (channels : ℚ) * (m : ℚ)) / spp) := by
  have h1 : Rounded 1 (roundFloat (v : ℚ)) (v : ℚ) := rounded_float (rounded_refl _)
  have h2 := rounded_float (rounded_mul h1 (rounded_refl a))
  have hc : Rounded 1 (roundFloat (channels : ℚ)) (channels : ℚ) :=
    rounded_float (rounded_refl _)
  have h3 := rounded_float (rounded_div h2 hc)
  have hm : Rounded 1 (roundFloat (m : ℚ)) (m : ℚ) := rounded_float (rounded_refl _)
  have h4 := rounded_float (rounded_mul h3 hm)
  have h5 := rounded_double (rounded_div h4 (rounded_refl spp))
  exact rounded_mono (by norm_num) (rounded_of_eq h5 (by ring))
/-! ## Averages against peaks in machine arithmetic -/

theorem truncToInt_neg (q : ℚ) : truncToInt (-q) = -truncToInt q := by
  unfold truncToInt
  by_cases h1 : 0 < q
  · rw [if_neg (by linarith), if_pos h1.le, Int.ceil_neg]
  · by_cases h2 : q = 0
    · subst h2; simp
    · have h3 : q < 0 := lt_of_le_of_ne (not_lt.mp h1) h2
      rw [if_pos (by linarith), if_neg (by linarith), Int.floor_neg]

theorem castInt_of_inRange {q : ℚ} (h : InIntRange q) : castInt q = truncToInt q := by
  unfold castInt
  exact if_pos h

theorem near_of_rounded {X Y tX tY : ℚ} (hX : Rounded 7 X tX) (hY : Rounded 7 Y tY)
    (h0 : 0 ≤ tY) (hle : tY ≤ tX) (hr : truncToInt X ≤ 2 ^ 31) : Y ≤ X + 32768 := by
  have hX0 : 0 ≤ X := rounded_nonneg hX (le_trans h0 hle)
  obtain ⟨θ, h1, _, h3⟩ := hX
  obtain ⟨φ, _, g2, g3⟩ := hY
  have hK := roundFactor_pow_pos 7
  have hXlt : X < 2 ^ 31 + 1 := by
    unfold truncToInt at hr
    rw [if_pos hX0] at hr
    have h4 := Int.lt_floor_add_one X
    have h5 : ((⌊X⌋ : Int) : ℚ) ≤ ((2 ^ 31 : Int) : ℚ) := by exact_mod_cast hr
    push_cast at h5
    linarith
  have htX0 : 0 ≤ tX := le_trans h0 hle
  have hXge : roundFactor ^ 7 * tX ≤ X := by
    rw [h3]
    exact mul_le_mul_of_nonneg_right h1 htX0
  have hYle : Y ≤ (roundFactor ^ 7)⁻¹ * tX := by
    rw [g3]
    calc φ * tY ≤ (roundFactor ^ 7)⁻¹ * tY := mul_le_mul_of_nonneg_right g2 h0
      _ ≤ (roundFactor ^ 7)⁻¹ * tX :=
          mul_le_mul_of_nonneg_left hle (inv_nonneg.mpr hK.le)
  have htX : tX ≤ (roundFactor ^ 7)⁻¹ * X := by
    rw [inv_mul_eq_div, le_div_iff₀ hK]
    linarith
  have hY2 : Y ≤ (roundFactor ^ 7)⁻¹ * ((roundFactor ^ 7)⁻¹ * X) :=
    le_trans hYle (mul_le_mul_of_nonneg_left htX (inv_nonneg.mpr hK.le))
  have hnum : (roundFactor ^ 7)⁻¹ * (roundFactor ^ 7)⁻¹ ≤ 1 + 1 / 1000000 := by
    norm_num [roundFactor]
  have hY3 : Y ≤ (1 + 1 / 1000000) * X := by
    calc Y ≤ (roundFactor ^ 7)⁻¹ * ((roundFactor ^ 7)⁻¹ * X) := hY2
      _ = (roundFactor ^ 7)⁻¹ * (roundFactor ^ 7)⁻¹ * X := by ring
      _ ≤ (1 + 1 / 1000000) * X := mul_le_mul_of_nonneg_right hnum hX0
  norm_num at hXlt
  linarith

theorem scaled_near {X Y : ℚ} {midpoint : Int} (hX0 : 0 ≤ X) (hY0 : 0 ≤ Y)
    (h : Y ≤ X + 32768) :
    min (Int.tdiv (truncToInt Y) 0x8000) midpoint
      ≤ min (Int.tdiv (truncToInt X) 0x8000) midpoint + 1 := by
  have hfX : 0 ≤ truncToInt X := truncToInt_nonneg hX0
  have hfY : 0 ≤ truncToInt Y := truncToInt_nonneg hY0
  have hfl : truncToInt Y ≤ truncToInt X + 32768 := by
    unfold truncToInt
    rw [if_pos hX0, if_pos hY0]
    have h1 : ⌊Y⌋ ≤ ⌊X + ((32768 : Int) : ℚ)⌋ := Int.floor_mono (by push_cast; exact h)
    rw [Int.floor_add_int] at h1
    exact h1
  rw [Int.tdiv_eq_ediv hfX (by norm_num), Int.tdiv_eq_ediv hfY (by norm_num)]
  have h2 : truncToInt Y / 32768 ≤ truncToInt X / 32768 + 1 := by omega
  rcases le_total (truncToInt X / 32768) midpoint with h3 | h3
  · rw [min_eq_left h3]
    exact le_trans (min_le_left _ _) h2
  · rw [min_eq_right h3]
    exact le_trans (min_le_right _ _) (by omega)

theorem scaled_sign {Y : ℚ} {midpoint : Int} (hY0 : 0 ≤ Y) (hm : 0 ≤ midpoint) :
    0 ≤ min (Int.tdiv (truncToInt Y) 0x8000) midpoint :=
  le_min (tdiv_nonneg_of_nonneg (truncToInt_nonneg hY0)) hm

/-- The max side and, by negation, the min side of the comparison of an average with its
peak, for operands that are roundings of `tY` and `tX`. -/
theorem avg_near_peak_max {X Y tX tY : ℚ} {midpoint : Int} (hX : Rounded 7 X tX)
    (hY : Rounded 7 Y tY) (h0 : 0 ≤ tY) (hle : tY ≤ tX) (hm : 0 ≤ midpoint)
    (hrX : InIntRange X) (hrY : InIntRange Y) :
    0 ≤ min (Int.tdiv (castInt Y) 0x8000) midpoint
    ∧ min (Int.tdiv (castInt Y) 0x8000) midpoint
        ≤ min (Int.tdiv (castInt X) 0x8000) midpoint + 1 := by
  rw [castInt_of_inRange hrX, castInt_of_inRange hrY]
  have hX0 : 0 ≤ X := rounded_nonneg hX (le_trans h0 hle)
  have hY0 : 0 ≤ Y := rounded_nonneg hY h0
  exact ⟨scaled_sign hY0 hm,
    scaled_near hX0 hY0 (near_of_rounded hX hY h0 hle (by have := hrX.2; omega))⟩

theorem avg_near_peak_min {X Y tX tY : ℚ} {midpoint : Int} (hX : Rounded 7 X tX)
    (hY : Rounded 7 Y tY) (h0 : tY ≤ 0) (hle : tX ≤ tY) (hm : 0 ≤ midpoint)
    (hrX : InIntRange X) (hrY : InIntRange Y) :
    max (Int.tdiv (castInt X) 0x8000) (-midpoint) - 1
        ≤ max (Int.tdiv (castInt Y) 0x8000) (-midpoint)
    ∧ max (Int.tdiv (castInt Y) 0x8000) (-midpoint) ≤ 0 := by
  rw [castInt_of_inRange hrX, castInt_of_inRange hrY]
  have hX0 : 0 ≤ -X := by have := rounded_nonpos hX (le_trans hle h0); linarith
  have hY0 : 0 ≤ -Y := by have := rounded_nonpos hY h0; linarith
  have hnear := near_of_rounded (rounded_neg hX) (rounded_neg hY) (by linarith) (by linarith)
    (by rw [truncToInt_neg]; have := hrX.1; omega)
  have h1 := @scaled_near _ _ midpoint hX0 hY0 hnear
  have h2 := @scaled_sign _ midpoint hY0 hm
  rw [truncToInt_neg, truncToInt_neg, Int.neg_tdiv, Int.neg_tdiv] at h1
  rw [truncToInt_neg, Int.neg_tdiv] at h2
  have e1 : ∀ a : Int, min (-a) midpoint = -max a (-midpoint) := by
    intro a
    rcases le_total a (-midpoint) with h | h
    · rw [max_eq_right h, min_eq_right (by omega)]; omega
    · rw [max_eq_left h, min_eq_left (by omega)]
  rw [e1, e1] at h1
  rw [e1] at h2
  constructor <;> omega
theorem roundNearest_nonneg (p : Nat) (hp : 24 ≤ p) {q : ℚ} (h : 0 ≤ q) :
    0 ≤ roundNearest p q :=
  rounded_nonneg (rounded_round p hp (rounded_refl q)) h

theorem roundFloat_nonneg {q : ℚ} (h : 0 ≤ q) : 0 ≤ roundFloat q :=
  roundNearest_nonneg 24 le_rfl h

theorem loopCountFloat_le {spp : ℚ} (hs : 0 ≤ spp) : ((loopCountFloat spp : Nat) : ℚ) ≤ spp := by
  unfold loopCountFloat castInt
  split
  · have h1 : 0 ≤ truncToInt spp := truncToInt_nonneg hs
    have h2 : (((truncToInt spp).toNat : Nat) : Int) = truncToInt spp :=
      Int.toNat_of_nonneg h1
    have h3 : ((((truncToInt spp).toNat : Nat) : Int) : ℚ) = ((truncToInt spp : Int) : ℚ) := by
      rw [h2]
    have h4 : ((truncToInt spp : Int) : ℚ) ≤ spp := by
      unfold truncToInt
      rw [if_pos hs]
      exact Int.floor_le spp
    have h5 : ((((truncToInt spp).toNat : Nat) : Int) : ℚ)
        = (((truncToInt spp).toNat : Nat) : ℚ) := by push_cast; rfl
    linarith
  · simpa using hs

theorem reduceLoop_avg_bounded (buf : Nat → Int) (channels c n : Nat) {spp : ℚ}
    (hn : (n : ℚ) ≤ spp) :
    ((reduceLoop buf channels c n 0 Accum.zero).avg_max_accum : ℚ)
        ≤ spp * ((reduceLoop buf channels c n 0 Accum.zero).peak_max : ℚ)
    ∧ spp * ((reduceLoop buf channels c n 0 Accum.zero).peak_min : ℚ)
        ≤ ((reduceLoop buf channels c n 0 Accum.zero).avg_min_accum : ℚ) := by
  obtain ⟨s1, s2, _, _⟩ := reduceLoop_signed buf channels c n 0 _ zero_signed
  have hb := foldl_avg_bounded
    ((List.range n).map (fun k => buf (0 + k * channels + c))) Accum.zero 0
    zero_signed (by simp [Accum.zero]) (by simp [Accum.zero])
  rw [← reduceLoop_eq_foldl] at hb
  simp only [List.length_map, List.length_range, Nat.zero_add] at hb
  obtain ⟨h1, h2⟩ := hb
  have q1 : ((reduceLoop buf channels c n 0 Accum.zero).avg_max_accum : ℚ)
      ≤ (n : ℚ) * ((reduceLoop buf channels c n 0 Accum.zero).peak_max : ℚ) := by
    exact_mod_cast h1
  have q2 : (n : ℚ) * ((reduceLoop buf channels c n 0 Accum.zero).peak_min : ℚ)
      ≤ ((reduceLoop buf channels c n 0 Accum.zero).avg_min_accum : ℚ) := by
    exact_mod_cast h2
  have p1 : (0 : ℚ) ≤ ((reduceLoop buf channels c n 0 Accum.zero).peak_max : ℚ) := by
    exact_mod_cast s2
  have p2 : ((reduceLoop buf channels c n 0 Accum.zero).peak_min : ℚ) ≤ 0 := by
    exact_mod_cast s1
  constructor
  · exact le_trans q1 (mul_le_mul_of_nonneg_right hn p1)
  · exact le_trans (mul_le_mul_of_nonpos_right hn p2) q2

theorem scaleSingleFloat_near {acc : Accum} (hsig : acc.Signed) {amplitude_scale spp : ℚ}
    {midpoint : Int} (ha : 0 ≤ amplitude_scale) (hs : 0 < spp) (hm : 0 ≤ midpoint)
    (h1 : (acc.avg_max_accum : ℚ) ≤ spp * (acc.peak_max : ℚ))
    (h2 : spp * (acc.peak_min : ℚ) ≤ (acc.avg_min_accum : ℚ))
    (hr : NoOverflowSingle acc amplitude_scale midpoint spp) :
    (scaleSingleFloat acc amplitude_scale midpoint spp).AvgNearPeak := by
  obtain ⟨s1, s2, s3, s4⟩ := hsig
  obtain ⟨r1, r2, r3, r4⟩ := hr
  have hk : (0 : ℚ) ≤ amplitude_scale * (midpoint : ℚ) :=
    mul_nonneg ha (by exact_mod_cast hm)
  obtain ⟨b1, b2, b3, b4⟩ := scaled_avg_between hk hs
    (show (0 : ℚ) ≤ (acc.peak_max : ℚ) by exact_mod_cast s2)
    (show (acc.peak_min : ℚ) ≤ 0 by exact_mod_cast s1)
    (show (0 : ℚ) ≤ (acc.avg_max_accum : ℚ) by exact_mod_cast s4)
    (show (acc.avg_min_accum : ℚ) ≤ 0 by exact_mod_cast s3) h1 h2
  have hmax := avg_near_peak_max
    (rounded_peakOperandSingle acc.peak_max amplitude_scale midpoint)
    (rounded_avgOperandSingle acc.avg_max_accum amplitude_scale midpoint spp) b3 b4 hm r2 r4
  have hmin := avg_near_peak_min
    (rounded_peakOperandSingle acc.peak_min amplitude_scale midpoint)
    (rounded_avgOperandSingle acc.avg_min_accum amplitude_scale midpoint spp) b2 b1 hm r1 r3
  exact ⟨hmin.1, hmin.2, hmax.1, hmax.2⟩

theorem scaleSeparateFloat_near {acc : Accum} (hsig : acc.Signed) {amplitude_scale spp : ℚ}
    (channels : Nat) {midpoint : Int} (ha : 0 ≤ amplitude_scale) (hs : 0 < spp)
    (hm : 0 ≤ midpoint)
    (h1 : (acc.avg_max_accum : ℚ) ≤ spp * (acc.peak_max : ℚ))
    (h2 : spp * (acc.peak_min : ℚ) ≤ (acc.avg_min_accum : ℚ))
    (hr : NoOverflowSeparate acc amplitude_scale channels midpoint spp) :
    (scaleSeparateFloat acc amplitude_scale channels midpoint spp).AvgNearPeak := by
  obtain ⟨s1, s2, s3, s4⟩ := hsig
  obtain ⟨r1, r2, r3, r4⟩ := hr
  have hk : (0 : ℚ) ≤ amplitude_scale / (channels : ℚ) * (midpoint : ℚ) :=
    mul_nonneg (div_nonneg ha (Nat.cast_nonneg _)) (by exact_mod_cast hm)
  obtain ⟨b1, b2, b3, b4⟩ := scaled_avg_between hk hs
    (show (0 : ℚ) ≤ (acc.peak_max : ℚ) by exact_mod_cast s2)
    (show (acc.peak_min : ℚ) ≤ 0 by exact_mod_cast s1)
    (show (0 : ℚ) ≤ (acc.avg_max_accum : ℚ) by exact_mod_cast s4)
    (show (acc.avg_min_accum : ℚ) ≤ 0 by exact_mod_cast s3) h1 h2
  have hmax := avg_near_peak_max
    (rounded_peakOperandSeparate acc.peak_max amplitude_scale channels midpoint)
    (rounded_avgOperandSeparate acc.avg_max_accum amplitude_scale channels midpoint spp)
    b3 b4 hm r2 r4
  have hmin := avg_near_peak_min
    (rounded_peakOperandSeparate acc.peak_min amplitude_scale channels midpoint)
    (rounded_avgOperandSeparate acc.avg_min_accum amplitude_scale channels midpoint spp)
    b2 b1 hm r1 r3
  exact ⟨hmin.1, hmin.2, hmax.1, hmax.2⟩

theorem midpointSeparateFloat_nonneg {height : Int} (hh : 0 ≤ height) (channels c : Nat)
    (hr : InIntRange (midpointOperand height channels c)) :
    0 ≤ midpointSeparateFloat height channels c := by
  unfold midpointSeparateFloat
  rw [castInt_of_inRange hr]
  apply truncToInt_nonneg
  unfold midpointOperand
  have h1 : (0 : ℚ) ≤ roundFloat (height : ℚ) := roundFloat_nonneg (by exact_mod_cast hh)
  have h2 : (0 : ℚ) ≤ roundFloat (channels : ℚ) := roundFloat_nonneg (Nat.cast_nonneg _)
  have h3 : (0 : ℚ) ≤ roundFloat (c : ℚ) := roundFloat_nonneg (Nat.cast_nonneg _)
  exact roundFloat_nonneg (mul_nonneg (roundFloat_nonneg (div_nonneg h1 h2))
    (roundFloat_nonneg (by linarith)))

/-- C17 (counterexample): one channel, a window of three samples 28672, amplitude scale
0.9f, 3 samples per pixel, height 160. In RenderSingle and in RenderSeparate the scaled
peak_max is 62 and the scaled avg_max is 63: the average lies outside the peak. -/
theorem average_exceeds_peak :
    columnSingleFloat (fun _ => 28672) 1 (roundFloat (9 / 10)) 3 160
        = { peak_min := 0, peak_max := 62, avg_min := 0, avg_max := 63 }
    ∧ columnSeparateFloat (fun _ => 28672) 1 0 (roundFloat (9 / 10)) 3 160
        = { peak_min := 0, peak_max := 62, avg_min := 0, avg_max := 63 }
    ∧ ¬ ((columnSingleFloat (fun _ => 28672) 1 (roundFloat (9 / 10)) 3 160).avg_max
          ≤ (columnSingleFloat (fun _ => 28672) 1 (roundFloat (9 / 10)) 3 160).peak_max) := by
  decide!

/-- C17 (amended): with the float and double arithmetic of the code, for every buffer of
samples, every samplesPerPixel at least 1, every amplitude scale at least 0 and height at
least 0, provided no (int) cast of the scaling overflows, the scaled values of a column
satisfy peak_min - 1 ≤ avg_min ≤ 0 ≤ avg_max ≤ peak_max + 1, in RenderSingle and for
every channel of RenderSeparate: each average is on its side of zero and at most one pixel
outside its peak. -/
theorem averages_within_one_pixel (buf : Nat → Int) (channels : Nat) (height : Int)
    (amplitude_scale spp : ℚ) (hh : 0 ≤ height) (ha : 0 ≤ amplitude_scale) (hs : 1 ≤ spp) :
    (NoOverflowSingle (reduceLoop buf channels 0 (loopCountFloat spp) 0 Accum.zero)
        amplitude_scale (midpointSingle height) spp →
      (columnSingleFloat buf channels amplitude_scale spp height).AvgNearPeak)
    ∧ ∀ c, c < channels → InIntRange (midpointOperand height channels c) →
        NoOverflowSeparate (reduceLoop buf channels c (loopCountFloat spp) 0 Accum.zero)
          amplitude_scale channels (midpointSeparateFloat height channels c) spp →
        (columnSeparateFloat buf channels c amplitude_scale spp height).AvgNearPeak := by
  have hpos : 0 < spp := lt_of_lt_of_le one_pos hs
  have hn := loopCountFloat_le hpos.le
  refine ⟨fun hr => ?_, fun c _ hmid hr => ?_⟩
  · have hb := reduceLoop_avg_bounded buf channels 0 (loopCountFloat spp) hn
    exact scaleSingleFloat_near (reduceLoop_signed buf channels 0 _ 0 _ zero_signed) ha hpos
      (midpointSingle_nonneg hh) hb.1 hb.2 hr
  · have hb := reduceLoop_avg_bounded buf channels c (loopCountFloat spp) hn
    exact scaleSeparateFloat_near (reduceLoop_signed buf channels c _ 0 _ zero_signed)
      channels ha hpos (midpointSeparateFloat_nonneg hh channels c hmid) hb.1 hb.2 hr

/-- Instance of C17 (amended): the window of three samples 28672 at amplitude scale 0.9f,
where avg_max = 63 = peak_max + 1. -/
theorem averages_within_one_pixel_witness :
    (columnSingleFloat (fun _ => 28672) 1 (roundFloat (9 / 10)) 3 160).AvgNearPeak
    ∧ (columnSeparateFloat (fun _ => 28672) 1 0 (roundFloat (9 / 10)) 3 160).AvgNearPeak :=
  ⟨(averages_within_one_pixel (fun _ => 28672) 1 160 (roundFloat (9 / 10)) 3 (by norm_num)
      (by decide!) (by norm_num)).1 (by unfold NoOverflowSingle InIntRange; decide!),
    (averages_within_one_pixel (fun _ => 28672) 1 160 (roundFloat (9 / 10)) 3 (by norm_num)
      (by decide!) (by norm_num)).2 0 (by norm_num) (by unfold InIntRange; decide!)
      (by unfold NoOverflowSeparate InIntRange; decide!)⟩
/-! ## The clamp and the 32-bit cast -/

/-- C1 (evaluation at the failing input): one channel, a window of one sample 32767,
amplitude scale 2000, height 100 (midpoint 50). The float product 32767 * 2000 * 50 is
3276699904, above the largest int, so the (int) cast overflows; with the value INT_MIN
that x86 delivers, peak_max and avg_max are INT_MIN / 0x8000 = -65536 in RenderSingle and
in RenderSeparate: negative and more than the midpoint away from zero. -/
theorem clamp_escapes_on_overflow :
    midpointSingle 100 = 50
    ∧ midpointSeparateFloat 100 1 0 = 50
    ∧ peakOperandSingle 32767 2000 50 = 3276699904
    ∧ ¬ (truncToInt (peakOperandSingle 32767 2000 50) < 2 ^ 31)
    ∧ columnSingleFloat (fun i => if i = 0 then 32767 else 0) 1 2000 1 100
        = { peak_min := 0, peak_max := -65536, avg_min := 0, avg_max := -65536 }
    ∧ columnSeparateFloat (fun i => if i = 0 then 32767 else 0) 1 0 2000 1 100
        = { peak_min := 0, peak_max := -65536, avg_min := 0, avg_max := -65536 }
    ∧ ¬ (0 ≤ (columnSingleFloat (fun i => if i = 0 then 32767 else 0) 1 2000 1 100).peak_max)
    ∧ ¬ (-midpointSingle 100
          ≤ (columnSingleFloat (fun i => if i = 0 then 32767 else 0) 1 2000 1 100).peak_max) := by
  decide!

/-! ## Windows with the cursor in double arithmetic -/

theorem cursorAfter_shift (spp cur : ℚ) (x : Nat) :
    cursorAfter spp (roundDouble (cur + spp)) x = cursorAfter spp cur (x + 1) := by
  induction x with
  | zero => rfl
  | succ n ih =>
    rw [cursorAfter, ih]
    rfl

theorem windowLoop_eq_map (spp : ℚ) (n : Nat) (cur : ℚ) :
    windowLoop spp n cur
      = (List.range n).map (fun x => (castInt64 (cursorAfter spp cur x), castInt64 spp)) := by
  induction n generalizing cur with
  | zero => rfl
  | succ k ih =>
    rw [windowLoop, ih, List.range_succ_eq_map]
    simp only [List.map_cons, List.map_map]
    congr 1
    apply List.map_congr_left
    intro x _
    simp only [Function.comp_apply, cursorAfter_shift]

theorem windowLoop_append (spp : ℚ) (n k : Nat) (cur : ℚ) :
    windowLoop spp (n + k) cur
      = windowLoop spp n cur ++ windowLoop spp k (cursorAfter spp cur n) := by
  induction n generalizing cur with
  | zero => simp [windowLoop, cursorAfter]
  | succ m ih =>
    have e : m + 1 + k = (m + k) + 1 := by omega
    rw [e, windowLoop, windowLoop, ih, cursorAfter_shift]
    rfl

theorem roundDouble_intCast (z : Int) (hz : |z| < 2 ^ 53) : roundDouble (z : ℚ) = z :=
  roundNearest_intCast 53 z hz

theorem castInt64_intCast (z : Int) (h1 : -2 ^ 63 ≤ z) (h2 : z < 2 ^ 63) :
    castInt64 (z : ℚ) = z := by
  unfold castInt64
  rw [truncToInt_intCast]
  exact if_pos ⟨h1, h2⟩

theorem cursorAt_exact (k start : Int) (hk : 0 ≤ k) (hstart : 0 ≤ start) (x : Nat)
    (hb : (start + (x : Int)) * k < 2 ^ 53) :
    cursorAt (k : ℚ) start x = (((start + (x : Int)) * k : Int) : ℚ) := by
  induction x with
  | zero =>
    have e : (start : ℚ) * (k : ℚ) = ((start * k : Int) : ℚ) := by push_cast; ring
    have h0 : 0 ≤ start * k := Int.mul_nonneg hstart hk
    simp only [cursorAt, cursorAfter]
    rw [e, roundDouble_intCast _ (by rw [abs_of_nonneg h0]; simpa using hb)]
    simp
  | succ n ih =>
    have hmono : (start + (n : Int)) * k ≤ (start + ((n + 1 : Nat) : Int)) * k := by
      apply Int.mul_le_mul_of_nonneg_right _ hk
      push_cast; omega
    have ihn := ih (lt_of_le_of_lt hmono hb)
    unfold cursorAt at ihn ⊢
    rw [cursorAfter, ihn]
    have e : (((start + (n : Int)) * k : Int) : ℚ) + (k : ℚ)
        = (((start + ((n + 1 : Nat) : Int)) * k : Int) : ℚ) := by push_cast; ring
    have h0 : 0 ≤ (start + ((n + 1 : Nat) : Int)) * k :=
      Int.mul_nonneg (by omega) hk
    rw [e, roundDouble_intCast _ (by rw [abs_of_nonneg h0]; exact hb)]

theorem renderWindows_exact (k start width : Int) (hk : 0 ≤ k) (hstart : 0 ≤ start)
    (hb : (start + width) * k < 2 ^ 53) :
    renderWindows (k : ℚ) width start
      = (List.range width.toNat).map (fun x : Nat => ((start + (x : Int)) * k, k)) := by
  unfold renderWindows
  rw [windowLoop_eq_map]
  apply List.map_congr_left
  intro x hx
  have hx2 : (x : Int) < width := by
    have := List.mem_range.mp hx
    omega
  have hle : (start + (x : Int)) * k ≤ (start + width) * k :=
    Int.mul_le_mul_of_nonneg_right (by omega) hk
  have hxb : (start + (x : Int)) * k < 2 ^ 53 := lt_of_le_of_lt hle hb
  have h0 : 0 ≤ (start + (x : Int)) * k := Int.mul_nonneg (by omega) hk
  have hkb : k < 2 ^ 53 := by
    have h1 : 1 * k ≤ (start + width) * k := Int.mul_le_mul_of_nonneg_right (by omega) hk
    omega
  have hc := cursorAt_exact k start hk hstart x hxb
  unfold cursorAt at hc
  rw [hc, castInt64_intCast _ (by omega) (by omega), castInt64_intCast _ (by omega) (by omega)]

/-- C11 (counterexample): at 44100 Hz and one millisecond per pixel, samplesPerPixel is
the double nearest to 44.1. In a render from pixel 0, column 30 reads from sample 1322;
a render from pixel 30 reads its column 0 from sample 1323, the truncation of
30 * samplesPerPixel. So the window depends on the start pixel, and a render of width 31
from pixel 0 does not read the windows of width 30 from pixel 0 followed by width 1 from
pixel 30. -/
theorem window_depends_on_start :
    samplesPerPixelFloat 1 44100 = roundDouble (441 / 10)
    ∧ (renderWindows (samplesPerPixelFloat 1 44100) 31 0).getD 30 (0, 0) = (1322, 44)
    ∧ (renderWindows (samplesPerPixelFloat 1 44100) 1 30).getD 0 (0, 0) = (1323, 44)
    ∧ truncToInt (((0 + 30 : Int) : ℚ) * samplesPerPixelFloat 1 44100) = 1323
    ∧ renderWindows (samplesPerPixelFloat 1 44100) 31 0
        ≠ renderWindows (samplesPerPixelFloat 1 44100) 30 0
          ++ renderWindows (samplesPerPixelFloat 1 44100) 1 30 := by
  decide!

/-- C11 (amended): with the cursor in the double arithmetic of the code, the window read
for column x of a render from pixel `start` is (truncation of the cursor, truncation of
samplesPerPixel), the cursor being start * samplesPerPixel followed by x additions of
samplesPerPixel; it is a function of start, x and samplesPerPixel, the same in both
layouts, so two renders with the same start and width read identical windows, and a
render of width W1 + W2 reads first the windows of a render of width W1 from the same
start and then continues from the same cursor. When samplesPerPixel is a whole number k,
start is at least 0 and (start + width) * k is below 2^53, the cursor is exact: the window
of column x is ((start + x) * k, k), which depends only on start + x, and a render of
width W1 + W2 from `start` reads the windows of a render of width W1 from `start` followed
by those of a render of width W2 from start + W1. -/
theorem windows_of_double_cursor (spp : ℚ) (start : Int) :
    (∀ width : Int, renderWindows spp width start
        = (List.range width.toNat).map (fun x =>
            (castInt64 (cursorAt spp start x), castInt64 spp)))
    ∧ (∀ W1 W2 : Nat, renderWindows spp ((W1 : Int) + (W2 : Int)) start
        = renderWindows spp (W1 : Int) start ++ windowLoop spp W2 (cursorAt spp start W1))
    ∧ (∀ k width : Int, spp = (k : ℚ) → 0 ≤ k → 0 ≤ start → (start + width) * k < 2 ^ 53 →
        renderWindows spp width start
          = (List.range width.toNat).map (fun x : Nat => ((start + (x : Int)) * k, k)))
    ∧ (∀ (k : Int) (W1 W2 : Nat), spp = (k : ℚ) → 0 ≤ k → 0 ≤ start →
        (start + (W1 : Int) + (W2 : Int)) * k < 2 ^ 53 →
        renderWindows spp ((W1 : Int) + (W2 : Int)) start
          = renderWindows spp (W1 : Int) start
            ++ renderWindows spp (W2 : Int) (start + (W1 : Int))) := by
  refine ⟨?_, ?_, ?_, ?_⟩
  · intro width
    unfold renderWindows cursorAt
    exact windowLoop_eq_map _ _ _
  · intro W1 W2
    unfold renderWindows cursorAt
    have h12 : ((W1 : Int) + (W2 : Int)).toNat = W1 + W2 := by omega
    rw [h12, Int.toNat_ofNat, windowLoop_append]
  · intro k width hspp hk hstart hb
    rw [hspp]
    exact renderWindows_exact k start width hk hstart hb
  · intro k W1 W2 hspp hk hstart hb
    have hb1 : (start + (W1 : Int)) * k < 2 ^ 53 := by
      have : (start + (W1 : Int)) * k ≤ (start + (W1 : Int) + (W2 : Int)) * k :=
        Int.mul_le_mul_of_nonneg_right (by omega) hk
      omega
    rw [hspp, renderWindows_exact k start _ hk hstart (by rw [← add_assoc]; exact hb),
      renderWindows_exact k start _ hk hstart hb1,
      renderWindows_exact k (start + (W1 : Int)) _ hk (by omega) hb]
    have h12 : ((W1 : Int) + (W2 : Int)).toNat = W1 + W2 := by omega
    rw [h12, Int.toNat_ofNat, Int.toNat_ofNat, List.range_add, List.map_append, List.map_map]
    congr 1
    apply List.map_congr_left
    intro i _
    simp only [Function.comp_apply]
    congr 1
    push_cast
    ring

/-- Instance of C11 (amended): 44 samples per pixel, three columns from pixel 2 read the
windows (88, 44), (132, 44), (176, 44). -/
theorem windows_of_double_cursor_witness :
    renderWindows 44 3 2
      = (List.range (3 : Int).toNat).map (fun x : Nat => ((2 + (x : Int)) * 44, 44)) :=
  (windows_of_double_cursor 44 2).2.2.1 44 3 (by norm_num) (by norm_num) (by norm_num)
    (by norm_num)

end AudioWaveformRenderer
